import Mathlib

/-!
The mtree front end of libarchive: only-set, exclude list and the run modes.

A shallow embedding of `src/mtree/only.c`, `src/mtree/mtree.c` and
`src/libarchive/archive_pathfnmatch.c`.

C strings are lists of bytes (`List Nat`).  Heap buffers carry their terminating
NUL explicitly, so that the in-place truncation done by `fill` is visible to every
table entry that points at the same buffer.
-/

namespace Mtree

/-! ## C strings -/

/-- The bytes of an ASCII literal, as the C code sees them. -/
def bytes (s : String) : List Nat := s.toList.map Char.toNat

/-- The byte value of the path separator. -/
abbrev SLASH : Nat := 47

/-- The C string stored in a buffer: the bytes before the first NUL. -/
def cstr (buf : List Nat) : List Nat := buf.takeWhile (fun c => c != 0)

/-- Index of the last occurrence of `c` in the C string `s` (`strrchr`), `none` for NULL. -/
def strrchr : List Nat → Nat → Option Nat
  | [], _ => none
  | x :: xs, c =>
    match strrchr xs c with
    | some i => some (i + 1)
    | none => if x = c then some 0 else none

/-- Index of the first occurrence of `c` in the C string `s` (`strchr`), `none` for NULL. -/
def strchr : List Nat → Nat → Option Nat
  | [], _ => none
  | x :: xs, c => if x = c then some 0 else (strchr xs c).map (· + 1)

/-! ## only.c -/

/-- Size of the hash table (`#define TABLE_SIZE 1024`). -/
abbrev TABLE_SIZE : Nat := 1024

/-- One chain cell of the table (`struct hentry`); `str` is a pointer, here the index of a heap
buffer, and the chain link `next` is the rest of the bucket list. -/
structure hentry where
  str : Nat
  hash : Nat
  deriving DecidableEq, Repr

/-- The module state of only.c: the allocated character buffers, the bucket array `table`
and the flag `loaded`. -/
structure OnlyState where
  heap : List (List Nat)
  table : List (List hentry)
  loaded : Bool
  deriving DecidableEq, Repr

/-- The state before any only-file is read (`table = NULL`, `loaded = false`). -/
def OnlyState.init : OnlyState := ⟨[], [], false⟩

/-- The C string a pointer refers to, read from the heap as it is now. -/
def deref (heap : List (List Nat)) (p : Nat) : List Nat := cstr (heap.getD p [])

/-- Store byte `v` at offset `i` of buffer `p` (`*ptr = v`). -/
def poke (heap : List (List Nat)) (p i v : Nat) : List (List Nat) :=
  heap.set p ((heap.getD p []).set i v)

/-- The 32-bit string hash `hash_str`: `hash = hash * 33 + c` over the bytes, then
`hash + (hash >> 5)`, all modulo `2^32`. -/
def hash_str (str : List Nat) : Nat :=
  let hash := str.foldl (fun hash c => (hash * 33 + c % 256) % 2 ^ 32) 0
  (hash + hash / 2 ^ 5) % 2 ^ 32

/-- The lookup `hash_find`: returns whether some cell of bucket `*h` has `e->hash == *h` and
`strcmp(e->str, str) == 0`, together with the bucket index `*h`. -/
def hash_find (heap : List (List Nat)) (table : List (List hentry)) (str : List Nat) :
    Bool × Nat :=
  let h := hash_str str % TABLE_SIZE
  ((table.getD h []).any (fun e => e.hash == h && deref heap e.str == str), h)

/-- The insertion `hash_insert`: a new cell `(str, h)` becomes the head of bucket `h`. -/
def hash_insert (table : List (List hentry)) (str h : Nat) : List (List hentry) :=
  table.set h (⟨str, h⟩ :: table.getD h [])

/-- The recursive `fill`: cut the buffer `str` at its last `/`, look the shortened string up,
and when it is absent insert a `strdup` copy and recurse; put the `/` back on the way out.
`none` only when the recursion budget is used up. -/
def fill : Nat → OnlyState → Nat → Option OnlyState
  | 0, _, _ => none
  | fuel + 1, st, str =>
    match strrchr (deref st.heap str) SLASH with
    | none => some st
    | some ptr =>
      let heap1 := poke st.heap str ptr 0
      let r := hash_find heap1 st.table (deref heap1 str)
      if r.1 then
        some { st with heap := poke heap1 str ptr SLASH }
      else
        let x := heap1.length
        let heap2 := heap1 ++ [deref heap1 str ++ [0]]
        let table2 := hash_insert st.table x r.2
        match fill fuel { st with heap := heap2, table := table2 } str with
        | none => none
        | some st4 => some { st4 with heap := poke st4.heap str ptr SLASH }

/-- How `mtree_read_load_only_file` ends: normally, with `lafe_errc(1, 0, "Duplicate entry ...")`
at a line (index and text), or with the recursion budget of the model used up. -/
inductive LoadResult where
  | ok (st : OnlyState)
  | duplicate (lineno : Nat) (line : List Nat)
  | nofuel
  deriving DecidableEq, Repr

/-- The `while ((line = fparseln(...)))` loop of `mtree_read_load_only_file` over the lines
still to be read; `lineno` counts the lines already consumed. -/
def load_loop : List (List Nat) → Nat → OnlyState → LoadResult
  | [], _, st => .ok { st with loaded := true }
  | l :: rest, lineno, st =>
    let line := st.heap.length
    let heap1 := st.heap ++ [l ++ [0]]
    let r := hash_find heap1 st.table (deref heap1 line)
    if r.1 then
      .duplicate lineno (deref heap1 line)
    else
      match fill ((deref heap1 line).length + 1)
          { st with heap := heap1, table := hash_insert st.table line r.2 } line with
      | none => .nofuel
      | some st2 => load_loop rest (lineno + 1) st2

/-- The function `mtree_read_load_only_file` on a file that opens and holds the lines `lines`:
`calloc` the table, then run the line loop. -/
def mtree_read_load_only_file (lines : List (List Nat)) : LoadResult :=
  load_loop lines 0 ⟨[], List.replicate TABLE_SIZE [], false⟩

/-- The query `mtree_find_only` on an entry whose pathname is `path`. -/
def mtree_find_only (st : OnlyState) (path : List Nat) : Bool :=
  if !st.loaded then true else (hash_find st.heap st.table path).1

/-- The answer of `mtree_find_only` after loading `lines`; `none` when the load did not succeed
(the process has exited and nothing is queried). -/
def find_after_load (lines : List (List Nat)) (path : List Nat) : Option Bool :=
  match mtree_read_load_only_file lines with
  | .ok st => some (mtree_find_only st path)
  | _ => none

/-! ## Ancestors of a path (the words of the specification) -/

/-- The path cut at its last `/` (`none` when it has no `/`). -/
def dirname (p : List Nat) : Option (List Nat) :=
  (strrchr p SLASH).map (fun i => p.take i)

/-- The relation `Ancestor a p`: `a` is reached from `p` by cutting at the last `/` one or
more times. -/
inductive Ancestor : List Nat → List Nat → Prop where
  | parent {a p : List Nat} : dirname p = some a → Ancestor a p
  | step {a q p : List Nat} : dirname p = some q → Ancestor a q → Ancestor a p

/-- The closure of a list of lines: its lines and their ancestors. -/
def InClosure (L : List (List Nat)) (q : List Nat) : Prop :=
  ∃ p ∈ L, q = p ∨ Ancestor q p

/-! ## Collaborators of mtree.c -/

/-- Modelled from the spec: the end-of-stream result of a reader, which the spec tells apart
from errors; the value is that of `ARCHIVE_EOF` in libarchive's `archive.h`, a header that is
declared outside the sources embedded here. -/
abbrev ARCHIVE_EOF : Int := 1

/-- Modelled from the spec: the result `Ok` of a reader or of the output sink; the value is
that of `ARCHIVE_OK` in `archive.h`. -/
abbrev ARCHIVE_OK : Int := 0

/-- Modelled from the spec: the result `Warning` of the output sink; the value is that of
`ARCHIVE_WARN` in `archive.h`. -/
abbrev ARCHIVE_WARN : Int := -20

/-- Modelled from the spec: the highest result of the output sink that counts as fatal; the
value is that of `ARCHIVE_FAILED` in `archive.h`. -/
abbrev ARCHIVE_FAILED : Int := -25

/-- Modelled from the spec: the result `Fatal` of the output sink; the value is that of
`ARCHIVE_FATAL` in `archive.h`. -/
abbrev ARCHIVE_FATAL : Int := -30

/-- Modelled from the spec: the entry type "regular file"; the value is that of `AE_IFREG`
in `archive_entry.h` (octal 0100000). -/
abbrev AE_IFREG : Nat := 32768

/-- Modelled from the spec: the `Entry` record, reduced to what mtree.c reads through
`archive_entry_pathname`, `archive_entry_filetype` and `archive_entry_sourcepath`; the type
`struct archive_entry` is declared outside the sources embedded here. -/
structure archive_entry where
  pathname : List Nat
  filetype : Nat
  sourcepath : List Nat
  deriving DecidableEq, Repr

/-- The glob matcher of the C library, a parameter of the embedding:
`fnmatch(pattern, string, flags)` with the values of `FNM_PATHNAME` and `FNM_NOMATCH` of
`<fnmatch.h>`. -/
structure Libc where
  fnmatch : List Nat → List Nat → Nat → Int
  FNM_PATHNAME : Nat
  FNM_NOMATCH : Int

/-- The fields of `struct mtree` (mtree.h) used by the functions embedded here. -/
structure mtree where
  cflag : Int := 0
  Cflag : Int := 0
  Dflag : Int := 0
  Uflag : Int := 0
  excludes : List (List Nat) := []
  bytes_per_block : Int := 0
  buf_size : Nat := 0
  deriving DecidableEq, Repr

/-- The collaborators behind `mt->diskreader`, `mt->ar_spec1`, `mt->writer` and the file
descriptors, a parameter of the embedding: each call is a transition of one world state `σ`
that returns its result and the next world. -/
structure World (σ : Type) where
  /-- The call `archive_read_next_header2(mt->diskreader, entry)`. -/
  disk_next_header : σ → Int × archive_entry × σ
  /-- The call `archive_read_next_header2(mt->ar_spec1, entry)`. -/
  spec_next_header : σ → Int × archive_entry × σ
  /-- The call `archive_read_disk_descend(mt->diskreader)`. -/
  disk_descend : σ → σ
  /-- The call `archive_write_header(mt->writer, entry)`. -/
  write_header : σ → archive_entry → Int × σ
  /-- The call `archive_write_data(mt->writer, mt->buf, len)`. -/
  write_data : σ → Int → Int × σ
  /-- The call `open(path, O_RDONLY | O_CLOEXEC)`. -/
  sys_open : σ → List Nat → Int × σ
  /-- The call `read(fd, mt->buf, mt->buf_size)`. -/
  sys_read : σ → Int → Nat → Int × σ
  /-- The call `close(fd)`. -/
  sys_close : σ → Int → σ

/-- The call site of a diagnostic (`lafe_warnc`, `lafe_errc`). -/
inductive Diag where
  | disk_read
  | spec_read
  | header_write
  | data_write
  | cannot_open
  deriving DecidableEq, Repr

/-- What a run does that the outside can see, in order. -/
inductive Event where
  | disk_header (r : Int) (e : archive_entry)
  | spec_header (r : Int) (e : archive_entry)
  | descend (e : archive_entry)
  | write_header (e : archive_entry) (r : Int)
  | sys_open (path : List Nat) (fd : Int)
  | sys_read (fd : Int) (len : Int)
  | write_data (len : Int) (written : Int)
  | sys_close (fd : Int)
  | warnc (d : Diag)
  | errc (d : Diag)
  deriving DecidableEq, Repr

/-- How a run stands: the function has returned a value, the process has ended with a code
(`lafe_errc`, or `exit(status)` at the end of `main`), or the step budget of the model is
used up and the loop is still going. -/
inductive Status where
  | returned (v : Int)
  | exited (code : Int)
  | running
  deriving DecidableEq, Repr

/-- A run: its status, the events so far and the world it has reached. -/
structure Run (σ : Type) where
  status : Status
  trace : List Event
  world : σ

/-- Put the events of the turns already done in front of the rest of the run. -/
def Run.after {σ : Type} (evs : List Event) (r : Run σ) : Run σ :=
  { r with trace := evs ++ r.trace }

/-- One turn of a `for (;;)` loop: its events, the world it reaches, and how the loop is
left (`break` and return, `lafe_errc`, or the budget of an inner loop used up); `none` when
the loop goes on to its next turn. -/
structure Step (σ : Type) where
  events : List Event
  world : σ
  stop : Option Status

/-- A `for (;;)` loop with the given body, run for at most `fuel` turns. -/
def for_loop {σ : Type} (body : Nat → σ → Step σ) : Nat → σ → Run σ
  | 0, w => ⟨.running, [], w⟩
  | n + 1, w =>
    let s := body n w
    match s.stop with
    | some st => ⟨st, s.events, s.world⟩
    | none => (for_loop body n s.world).after s.events

/-! ## mtree.c and archive_pathfnmatch.c -/

/-- The function `__archive_mtree_pathmatch`: 1 for a match, 0 for `FNM_NOMATCH`, else -1. -/
def __archive_mtree_pathmatch (lib : Libc) (p s : List Nat) (flags : Nat) : Int :=
  let r := lib.fnmatch p s (flags ||| lib.FNM_PATHNAME)
  if r = 0 then 1
  else if r = lib.FNM_NOMATCH then 0
  else -1

/-- The `for` loop of `check_excludes` over the patterns still to be tried; `s` is the
pointer the loop carries from one pattern to the next. -/
def check_excludes_loop (lib : Libc) : List (List Nat) → List Nat → Int
  | [], _ => 0
  | p :: rest, s =>
    let s1 :=
      if strchr p SLASH = none then
        match strrchr s SLASH with
        | some c => s.drop (c + 1)
        | none => s
      else s
    if lib.fnmatch p s1 lib.FNM_PATHNAME = 0 then 1
    else check_excludes_loop lib rest s1

/-- The function `check_excludes`: the loop started at `archive_entry_pathname(entry)`. -/
def check_excludes (lib : Libc) (entry : archive_entry) (mt : mtree) : Int :=
  check_excludes_loop lib mt.excludes entry.pathname

/-- The `do ... while (len > 0)` loop of `mtree_write_data` on an open descriptor; `none`
when the step budget is used up. -/
def write_data_loop {σ : Type} (W : World σ) (mt : mtree) (fd : Int) :
    Nat → σ → Option Int × List Event × σ
  | 0, w => (none, [], w)
  | n + 1, w =>
    let rd := W.sys_read w fd mt.buf_size
    let wr := W.write_data rd.2 rd.1
    if wr.1 < 0 ∨ wr.1 < rd.1 then
      (some (-1), [.sys_read fd rd.1, .write_data rd.1 wr.1, .warnc .data_write,
        .sys_close fd], W.sys_close wr.2 fd)
    else if rd.1 > 0 then
      let r := write_data_loop W mt fd n wr.2
      (r.1, .sys_read fd rd.1 :: .write_data rd.1 wr.1 :: r.2.1, r.2.2)
    else
      (some 0, [.sys_read fd rd.1, .write_data rd.1 wr.1, .sys_close fd], W.sys_close wr.2 fd)

/-- The function `mtree_write_data`: open the file, copy it chunk by chunk, close it. -/
def mtree_write_data {σ : Type} (W : World σ) (mt : mtree) (path : List Nat) (fuel : Nat)
    (w : σ) : Option Int × List Event × σ :=
  let o := W.sys_open w path
  if o.1 < 0 then
    (some (-1), [.sys_open path o.1, .warnc .cannot_open], o.2)
  else
    let r := write_data_loop W mt o.1 fuel o.2
    (r.1, .sys_open path o.1 :: r.2.1, r.2.2)

/-- One turn of the `for (;;)` loop of `mtree_cwalk`; `fuel` is the step budget handed to
the checksum-copy pass. -/
def cwalk_body {σ : Type} (W : World σ) (lib : Libc) (only : OnlyState) (mt : mtree)
    (fuel : Nat) (w : σ) : Step σ :=
  let nx := W.disk_next_header w
  let entry := nx.2.1
  if nx.1 = ARCHIVE_EOF then
    ⟨[.disk_header nx.1 entry], nx.2.2, some (.returned 0)⟩
  else if nx.1 < ARCHIVE_OK then
    ⟨[.disk_header nx.1 entry, .errc .disk_read], nx.2.2, some (.exited 1)⟩
  else if check_excludes lib entry mt = 1 then
    ⟨[.disk_header nx.1 entry], nx.2.2, none⟩
  else if !mtree_find_only only entry.pathname then
    ⟨[.disk_header nx.1 entry], nx.2.2, none⟩
  else
    let w2 := W.disk_descend nx.2.2
    let wh := W.write_header w2 entry
    if wh.1 ≤ ARCHIVE_FAILED then
      ⟨[.disk_header nx.1 entry, .descend entry, .write_header entry wh.1,
        .errc .header_write], wh.2, some (.exited 1)⟩
    else
      let warn := if wh.1 < ARCHIVE_OK then [Event.warnc .header_write] else []
      let evs := [.disk_header nx.1 entry, .descend entry, .write_header entry wh.1] ++ warn
      if entry.filetype = AE_IFREG then
        let d := mtree_write_data W mt entry.sourcepath fuel wh.2
        match d.1 with
        | none => ⟨evs ++ d.2.1, d.2.2, some .running⟩
        | some _ => ⟨evs ++ d.2.1, d.2.2, none⟩
      else
        ⟨evs, wh.2, none⟩

/-- The function `mtree_cwalk` (generate mode): the `for (;;)` loop over the disk walker;
it returns 0 when the loop is left at end-of-stream. -/
def mtree_cwalk {σ : Type} (W : World σ) (lib : Libc) (only : OnlyState) (mt : mtree) :
    Nat → σ → Run σ :=
  for_loop (cwalk_body W lib only mt)

/-- One turn of the `for (;;)` loop of `mtree_convert`. -/
def convert_body {σ : Type} (W : World σ) (_mt : mtree) (_fuel : Nat) (w : σ) : Step σ :=
  let nx := W.spec_next_header w
  let entry := nx.2.1
  if nx.1 = ARCHIVE_EOF then
    ⟨[.spec_header nx.1 entry], nx.2.2, some (.returned 0)⟩
  else if nx.1 < ARCHIVE_OK then
    ⟨[.spec_header nx.1 entry, .errc .spec_read], nx.2.2, some (.exited 1)⟩
  else
    let wh := W.write_header nx.2.2 entry
    if wh.1 ≤ ARCHIVE_FAILED then
      ⟨[.spec_header nx.1 entry, .write_header entry wh.1, .errc .header_write], wh.2,
        some (.exited 1)⟩
    else
      let warn := if wh.1 < ARCHIVE_OK then [Event.warnc .header_write] else []
      ⟨[.spec_header nx.1 entry, .write_header entry wh.1] ++ warn, wh.2, none⟩

/-- The function `mtree_convert` (convert mode): the `for (;;)` loop over the spec reader;
it returns 0 when the loop is left at end-of-stream. -/
def mtree_convert {σ : Type} (W : World σ) (mt : mtree) : Nat → σ → Run σ :=
  for_loop (convert_body W mt)

/-- One turn of the `for (;;)` loop of `mtree_verify`: the result of the read from
`mt->ar_spec1` is stored in `r` and at once overwritten by the result of the read from
`mt->diskreader`, which alone is tested. -/
def verify_body {σ : Type} (W : World σ) (lib : Libc) (only : OnlyState) (mt : mtree)
    (_fuel : Nat) (w : σ) : Step σ :=
  let sp := W.spec_next_header w
  let nx := W.disk_next_header sp.2.2
  let disk_entry := nx.2.1
  let reads := [Event.spec_header sp.1 sp.2.1, Event.disk_header nx.1 disk_entry]
  if nx.1 = ARCHIVE_EOF then
    ⟨reads, nx.2.2, some (.returned 0)⟩
  else if nx.1 < ARCHIVE_OK then
    ⟨reads ++ [.errc .disk_read], nx.2.2, some (.exited 1)⟩
  else if check_excludes lib disk_entry mt = 1 then
    ⟨reads, nx.2.2, none⟩
  else if !mtree_find_only only disk_entry.pathname then
    ⟨reads, nx.2.2, none⟩
  else
    ⟨reads ++ [.descend disk_entry], W.disk_descend nx.2.2, none⟩

/-- The function `mtree_verify` (verify mode): the `for (;;)` loop over the spec reader and
the disk walker; it returns 0 when the loop is left at the walker's end-of-stream. -/
def mtree_verify {σ : Type} (W : World σ) (lib : Libc) (only : OnlyState) (mt : mtree) :
    Nat → σ → Run σ :=
  for_loop (verify_body W lib only mt)

/-- The exit status for mismatches (`#define MISMATCHEXIT 2`, mtree.h). -/
abbrev MISMATCHEXIT : Int := 2

/-- The baseline of the checksum buffer (`#define DEFAULT_BYTES_PER_BLOCK (64*1024)`). -/
abbrev DEFAULT_BYTES_PER_BLOCK : Nat := 64 * 1024

/-- The largest `int` (`INT_MAX` for a 32-bit `int`). -/
abbrev INT_MAX : Int := 2 ^ 31 - 1

/-- The cast `(size_t)mt->bytes_per_block` for a `size_t` of `bits` bits. -/
def size_cast (bits : Nat) (b : Int) : Nat := (b % (2 : Int) ^ bits).toNat

/-- The loop `while (mt->buf_size < (size_t)mt->bytes_per_block) mt->buf_size *= 2;` of
`main`, in `size_t` arithmetic of `bits` bits; `none` when the step budget is used up. -/
def buf_size_loop (bits : Nat) (target : Nat) : Nat → Nat → Option Nat
  | 0, _ => none
  | n + 1, buf_size =>
    if buf_size < target then buf_size_loop bits target n ((buf_size * 2) % 2 ^ bits)
    else some buf_size

/-- The sizing of `mt->buf_size` in `main`: start at `DEFAULT_BYTES_PER_BLOCK` and double
up to the block size of the writer. -/
def main_buf_size (bits : Nat) (fuel : Nat) (bytes_per_block : Int) : Option Nat :=
  buf_size_loop bits (size_cast bits bytes_per_block) fuel DEFAULT_BYTES_PER_BLOCK

/-- The end of `main`: with `-U` a status equal to `MISMATCHEXIT` becomes 0, then
`exit(status)`. -/
def main_exit {σ : Type} (mt : mtree) (status : Int) (r : Run σ) : Run σ :=
  { r with status := .exited (if mt.Uflag ≠ 0 ∧ status = MISMATCHEXIT then 0 else status) }

/-- The function `main` from the opening of the writer on: `status` holds the result of
`archive_write_open_filename`, which is `ARCHIVE_OK` or the process has exited; then the
mode is chosen from `cflag`, `Cflag`, `Dflag` and whether a second spec was given.  Generate
and convert mode assign their result to `status`; the two-spec mode is compiled out and
verify mode calls `mtree_verify` without using its result, so `status` keeps its value. -/
def main {σ : Type} (W : World σ) (lib : Libc) (only : OnlyState) (mt : mtree)
    (spec2 : Bool) (fuel : Nat) (w : σ) : Run σ :=
  let status : Int := ARCHIVE_OK
  if mt.cflag ≠ 0 then
    let r := mtree_cwalk W lib only mt fuel w
    match r.status with
    | .returned v => main_exit mt v r
    | _ => r
  else if mt.Cflag ≠ 0 ∨ mt.Dflag ≠ 0 then
    let r := mtree_convert W mt fuel w
    match r.status with
    | .returned v => main_exit mt v r
    | _ => r
  else if spec2 then
    main_exit mt status ⟨.running, [], w⟩
  else
    let r := mtree_verify W lib only mt fuel w
    match r.status with
    | .returned _ => main_exit mt status r
    | _ => r

/-! ## Reading a trace -/

/-- The entries the disk walker yielded: header reads that are neither end-of-stream nor
below `ARCHIVE_OK`. -/
def disk_yielded : List Event → List archive_entry
  | [] => []
  | .disk_header r e :: tr =>
    if r = ARCHIVE_EOF ∨ r < ARCHIVE_OK then disk_yielded tr else e :: disk_yielded tr
  | _ :: tr => disk_yielded tr

/-- The entries the spec reader yielded. -/
def spec_yielded : List Event → List archive_entry
  | [] => []
  | .spec_header r e :: tr =>
    if r = ARCHIVE_EOF ∨ r < ARCHIVE_OK then spec_yielded tr else e :: spec_yielded tr
  | _ :: tr => spec_yielded tr

/-- The entries handed to `archive_write_header`, in order. -/
def headers_written : List Event → List archive_entry
  | [] => []
  | .write_header e _ :: tr => e :: headers_written tr
  | _ :: tr => headers_written tr

/-- The entries for which `archive_read_disk_descend` was called, in order. -/
def descended : List Event → List archive_entry
  | [] => []
  | .descend e :: tr => e :: descended tr
  | _ :: tr => descended tr

/-- The results of the header writes, in order. -/
def header_results : List Event → List Int
  | [] => []
  | .write_header _ r :: tr => r :: header_results tr
  | _ :: tr => header_results tr

/-- The entry passes both filters of generate mode. -/
def accepted (lib : Libc) (only : OnlyState) (mt : mtree) (e : archive_entry) : Bool :=
  !(check_excludes lib e mt == 1) && mtree_find_only only e.pathname

/-- The final component of a path: the text after its last `/`, or all of it when it has
no `/`. -/
def final_component (s : List Nat) : List Nat :=
  match strrchr s SLASH with
  | some c => s.drop (c + 1)
  | none => s

/-- An event of the checksum-copy pass (`mtree_write_data`). -/
def is_data_event : Event → Bool
  | .sys_open _ _ => true
  | .sys_read _ _ => true
  | .write_data _ _ => true
  | .sys_close _ => true
  | .warnc .data_write => true
  | .warnc .cannot_open => true
  | _ => false

/-- A read of the next header, from the disk walker or from the spec reader. -/
def is_next_header : Event → Bool
  | .disk_header _ _ => true
  | .spec_header _ _ => true
  | _ => false

/-- What follows every header write of a run, by its result `r`: at or below
`ARCHIVE_FAILED` only the fatal diagnostic follows and the process has exited with code 1;
between `ARCHIVE_FAILED` and `ARCHIVE_OK` the warning follows at once; from `ARCHIVE_OK` up no
header warning follows; and in the last two cases a next header is read later in the run,
unless the step budget ended the observation first. -/
def header_discipline (st : Status) : List Event → Prop
  | [] => True
  | .write_header _ r :: post =>
    (r ≤ ARCHIVE_FAILED → post = [.errc .header_write] ∧ st = .exited 1) ∧
    (ARCHIVE_FAILED < r → r < ARCHIVE_OK → post.head? = some (.warnc .header_write)) ∧
    (ARCHIVE_OK ≤ r → post.head? ≠ some (.warnc .header_write)) ∧
    (ARCHIVE_FAILED < r → st = .running ∨ ∃ ev ∈ post, is_next_header ev = true) ∧
    header_discipline st post
  | _ :: post => header_discipline st post

/-- The number of header reads from the spec reader. -/
def spec_reads : List Event → Nat
  | [] => 0
  | .spec_header _ _ :: tr => spec_reads tr + 1
  | _ :: tr => spec_reads tr

/-- The number of header reads from the disk walker. -/
def disk_reads : List Event → Nat
  | [] => 0
  | .disk_header _ _ :: tr => disk_reads tr + 1
  | _ :: tr => disk_reads tr

/-- A warning (`lafe_warnc`). -/
def is_warning : Event → Bool
  | .warnc _ => true
  | _ => false

/-- What follows the open and every data write of one checksum-copy pass with result `res`:
after an open that fails only the warning follows; after a write whose result is negative
or below the number of bytes read only the warning and the close follow; in both cases the
pass returns -1. -/
def copy_discipline (res : Option Int) : List Event → Prop
  | [] => True
  | .sys_open _ fd :: post =>
    (fd < 0 → post = [.warnc .cannot_open] ∧ res = some (-1)) ∧ copy_discipline res post
  | .write_data len written :: post =>
    (written < 0 ∨ written < len →
      (∃ fd, post = [.warnc .data_write, .sys_close fd]) ∧ res = some (-1)) ∧
    copy_discipline res post
  | _ :: post => copy_discipline res post

/-- The data writes of a trace, each with the number of bytes handed over and the result. -/
def data_writes : List Event → List (Int × Int)
  | [] => []
  | .write_data len written :: tr => (len, written) :: data_writes tr
  | _ :: tr => data_writes tr

/-! ## A concrete matcher and a concrete world, for examples -/

/-- Try the rest of a pattern after a `*` at every split of the string; with `pathname` a
`*` does not cross a `/`. -/
def glob_star (f : List Nat → Bool) (pathname : Bool) : List Nat → Bool
  | [] => f []
  | c :: s => f (c :: s) || (!(pathname && c == SLASH) && glob_star f pathname s)

/-- Shell pattern matching for patterns made of literal bytes, `?` (63) and `*` (42);
bracket expressions and backslash escapes are not modelled. -/
def glob (pathname : Bool) : List Nat → List Nat → Bool
  | [], s => s.isEmpty
  | c :: p, s =>
    if c = 42 then glob_star (glob pathname p) pathname s
    else
      match s with
      | [] => false
      | d :: s1 =>
        if c = 63 then !(pathname && d == SLASH) && glob pathname p s1
        else c == d && glob pathname p s1

/-- A C library whose `fnmatch` is `glob`, with `FNM_PATHNAME = 1` and `FNM_NOMATCH = 1`. -/
def glob_libc : Libc where
  fnmatch := fun p s flags => if glob (flags % 2 == 1) p s then 0 else 1
  FNM_PATHNAME := 1
  FNM_NOMATCH := 1

/-- A small world: the disk walker and the spec reader each yield a fixed list of entries
and then end-of-stream, every header write returns a fixed result, and every file opens as
descriptor 3 and is empty. -/
structure Script where
  disk : List archive_entry
  spec : List archive_entry
  header_result : Int
  deriving DecidableEq, Repr

/-- The collaborators of the small world. -/
def script_world : World Script where
  disk_next_header := fun w =>
    match w.disk with
    | [] => (ARCHIVE_EOF, ⟨[], 0, []⟩, w)
    | e :: rest => (ARCHIVE_OK, e, { w with disk := rest })
  spec_next_header := fun w =>
    match w.spec with
    | [] => (ARCHIVE_EOF, ⟨[], 0, []⟩, w)
    | e :: rest => (ARCHIVE_OK, e, { w with spec := rest })
  disk_descend := fun w => w
  write_header := fun w _ => (w.header_result, w)
  write_data := fun w len => (len, w)
  sys_open := fun w _ => (3, w)
  sys_read := fun w _ _ => (0, w)
  sys_close := fun w _ => w

/-- A regular file named by an ASCII literal. -/
def regular_file (name : String) : archive_entry := ⟨bytes name, AE_IFREG, bytes name⟩

/-- A C library like `glob_libc`, except that `fnmatch` reports an error (result 2, which is
neither 0 nor `FNM_NOMATCH`) for the pattern `[`. -/
def erring_libc : Libc where
  fnmatch := fun p s flags => if p = [91] then 2 else glob_libc.fnmatch p s flags
  FNM_PATHNAME := 1
  FNM_NOMATCH := 1

/-- A scripted world: the disk walker and the spec reader each give a fixed list of results
and entries and then end-of-stream; a file opens as descriptor 3 when it is listed in `files`
with the lengths of its chunks, and fails to open otherwise; the data writes give the
scripted results in `writes` and, when these are used up, write all they are given; every
header write succeeds. -/
structure Tape where
  disk : List (Int × archive_entry)
  spec : List (Int × archive_entry)
  files : List (List Nat × List Int)
  pending : List Int
  writes : List Int
  deriving DecidableEq, Repr

/-- The collaborators of the scripted world. -/
def tape_world : World Tape where
  disk_next_header := fun w =>
    match w.disk with
    | [] => (ARCHIVE_EOF, ⟨[], 0, []⟩, w)
    | (r, e) :: rest => (r, e, { w with disk := rest })
  spec_next_header := fun w =>
    match w.spec with
    | [] => (ARCHIVE_EOF, ⟨[], 0, []⟩, w)
    | (r, e) :: rest => (r, e, { w with spec := rest })
  disk_descend := fun w => w
  write_header := fun w _ => (ARCHIVE_OK, w)
  write_data := fun w len =>
    match w.writes with
    | [] => (len, w)
    | v :: rest => (v, { w with writes := rest })
  sys_open := fun w path =>
    match w.files.lookup path with
    | some chunks => (3, { w with pending := chunks })
    | none => (-1, w)
  sys_read := fun w _ _ =>
    match w.pending with
    | [] => (0, w)
    | c :: rest => (c, { w with pending := rest })
  sys_close := fun w _ => w

/-! ## Predicates used in the proofs -/

/-- Every cell of the table points at an allocated buffer. -/
def InRange (heap : List (List Nat)) (table : List (List hentry)) : Prop :=
  ∀ h e, e ∈ table.getD h [] → e.str < heap.length

/-- The effect of a `fill` that returns: the old buffers are as before (the `/` are back),
the new buffers hold ancestors of the string, the table keeps its cells and its new cells
point at allocated buffers. -/
structure FillPost (st st2 : OnlyState) (b : Nat) : Prop where
  heap : ∃ ex, st2.heap = st.heap ++ ex ∧ ∀ x ∈ ex, Ancestor (cstr x) (deref st.heap b)
  len : st2.table.length = st.table.length
  range : InRange st2.heap st2.table
  keep : ∀ h e, e ∈ st.table.getD h [] → e ∈ st2.table.getD h []
  loaded : st2.loaded = st.loaded

/-- The state after the lines `S` have been consumed: the table has its `TABLE_SIZE` buckets,
every cell points at an allocated buffer, every buffer holds a line of `S` or an ancestor of
one, and every line of `S` is found. -/
structure Good (st : OnlyState) (S : List (List Nat)) : Prop where
  len : st.table.length = TABLE_SIZE
  range : InRange st.heap st.table
  sound : ∀ buf ∈ st.heap, InClosure S (cstr buf)
  found : ∀ l ∈ S, (hash_find st.heap st.table l).1 = true

/-- A header write. -/
def is_write_header : Event → Bool
  | .write_header _ _ => true
  | _ => false

/-- The rest of a run starts with a header read, or is empty because the budget ended. -/
def starts_with_read (st : Status) (tr : List Event) : Prop :=
  (tr = [] ∧ st = .running) ∨ ∃ ev, tr.head? = some ev ∧ is_next_header ev = true

/-- The shapes one turn of generate mode can take: end-of-stream, a read error, an entry
that a filter rejects, an accepted entry whose header write is fatal, and an accepted entry
whose header is written and, for a regular file, copied. -/
inductive CwalkTurn {σ : Type} (lib : Libc) (only : OnlyState) (mt : mtree) : Step σ → Prop where
  | eof (r : Int) (e : archive_entry) (w : σ) : r = ARCHIVE_EOF →
      CwalkTurn lib only mt ⟨[.disk_header r e], w, some (.returned 0)⟩
  | read_error (r : Int) (e : archive_entry) (w : σ) : ¬ r = ARCHIVE_EOF → r < ARCHIVE_OK →
      CwalkTurn lib only mt ⟨[.disk_header r e, .errc .disk_read], w, some (.exited 1)⟩
  | filtered (r : Int) (e : archive_entry) (w : σ) : ¬ r = ARCHIVE_EOF → ¬ r < ARCHIVE_OK →
      accepted lib only mt e = false →
      CwalkTurn lib only mt ⟨[.disk_header r e], w, none⟩
  | fatal (r r2 : Int) (e : archive_entry) (w : σ) : ¬ r = ARCHIVE_EOF → ¬ r < ARCHIVE_OK →
      accepted lib only mt e = true → r2 ≤ ARCHIVE_FAILED →
      CwalkTurn lib only mt
        ⟨[.disk_header r e, .descend e, .write_header e r2, .errc .header_write], w,
          some (.exited 1)⟩
  | written (r r2 : Int) (e : archive_entry) (data : List Event) (w : σ)
      (stop : Option Status) : ¬ r = ARCHIVE_EOF → ¬ r < ARCHIVE_OK →
      accepted lib only mt e = true → ARCHIVE_FAILED < r2 →
      (∀ ev ∈ data, is_data_event ev = true) → (stop = none ∨ stop = some .running) →
      CwalkTurn lib only mt
        ⟨[.disk_header r e, .descend e, .write_header e r2] ++
          (if r2 < ARCHIVE_OK then [Event.warnc .header_write] else []) ++ data, w, stop⟩

/-- The shapes one turn of convert mode can take. -/
inductive ConvertTurn {σ : Type} : Step σ → Prop where
  | eof (r : Int) (e : archive_entry) (w : σ) : r = ARCHIVE_EOF →
      ConvertTurn ⟨[.spec_header r e], w, some (.returned 0)⟩
  | read_error (r : Int) (e : archive_entry) (w : σ) : ¬ r = ARCHIVE_EOF → r < ARCHIVE_OK →
      ConvertTurn ⟨[.spec_header r e, .errc .spec_read], w, some (.exited 1)⟩
  | fatal (r r2 : Int) (e : archive_entry) (w : σ) : ¬ r = ARCHIVE_EOF → ¬ r < ARCHIVE_OK →
      r2 ≤ ARCHIVE_FAILED →
      ConvertTurn ⟨[.spec_header r e, .write_header e r2, .errc .header_write], w,
        some (.exited 1)⟩
  | written (r r2 : Int) (e : archive_entry) (w : σ) : ¬ r = ARCHIVE_EOF → ¬ r < ARCHIVE_OK →
      ARCHIVE_FAILED < r2 →
      ConvertTurn ⟨[.spec_header r e, .write_header e r2] ++
          (if r2 < ARCHIVE_OK then [Event.warnc .header_write] else []), w, none⟩

/-- What follows every header read of a run whose result is below `ARCHIVE_OK` and not
`ARCHIVE_EOF`: only the fatal diagnostic, and the process has exited with code 1.  For the
reads of the spec reader this is required only when `spec_tested` is set. -/
def read_discipline (spec_tested : Bool) (st : Status) : List Event → Prop
  | [] => True
  | .disk_header r _ :: post =>
    (¬ r = ARCHIVE_EOF → r < ARCHIVE_OK → post = [.errc .disk_read] ∧ st = .exited 1) ∧
    read_discipline spec_tested st post
  | .spec_header r _ :: post =>
    (spec_tested = true → ¬ r = ARCHIVE_EOF → r < ARCHIVE_OK →
      post = [.errc .spec_read] ∧ st = .exited 1) ∧
    read_discipline spec_tested st post
  | _ :: post => read_discipline spec_tested st post

/-- What follows every failure of a checksum-copy pass in a run of generate mode: after an
open that fails, the warning and then the read of the next header; after a data write whose
result is negative or below the number of bytes read, the warning, the close and then the
read of the next header (or the end of the observation when the budget ended it). -/
def copy_failures_skip (st : Status) : List Event → Prop
  | [] => True
  | .sys_open _ fd :: post =>
    (fd < 0 → ∃ rest, post = .warnc .cannot_open :: rest ∧ starts_with_read st rest) ∧
    copy_failures_skip st post
  | .write_data len written :: post =>
    (written < 0 ∨ written < len →
      ∃ fd rest, post = .warnc .data_write :: .sys_close fd :: rest ∧
        starts_with_read st rest) ∧
    copy_failures_skip st post
  | _ :: post => copy_failures_skip st post

/-- The shapes one turn of verify mode can take: the walker's end-of-stream, a walker read
error, a disk entry that a filter rejects, and a disk entry that is descended into.  The
result `rs` of the spec read is free in all of them. -/
inductive VerifyTurn {σ : Type} (lib : Libc) (only : OnlyState) (mt : mtree) :
    Step σ → Prop where
  | eof (rs r : Int) (es e : archive_entry) (w : σ) : r = ARCHIVE_EOF →
      VerifyTurn lib only mt ⟨[.spec_header rs es, .disk_header r e], w, some (.returned 0)⟩
  | read_error (rs r : Int) (es e : archive_entry) (w : σ) : ¬ r = ARCHIVE_EOF →
      r < ARCHIVE_OK →
      VerifyTurn lib only mt
        ⟨[.spec_header rs es, .disk_header r e, .errc .disk_read], w, some (.exited 1)⟩
  | filtered (rs r : Int) (es e : archive_entry) (w : σ) : ¬ r = ARCHIVE_EOF →
      ¬ r < ARCHIVE_OK → accepted lib only mt e = false →
      VerifyTurn lib only mt ⟨[.spec_header rs es, .disk_header r e], w, none⟩
  | descended (rs r : Int) (es e : archive_entry) (w : σ) : ¬ r = ARCHIVE_EOF →
      ¬ r < ARCHIVE_OK → accepted lib only mt e = true →
      VerifyTurn lib only mt
        ⟨[.spec_header rs es, .disk_header r e, .descend e], w, none⟩

/-! ## Lemmas on C strings and buffers -/

theorem strrchr_lt {s : List Nat} {c i : Nat} (h : strrchr s c = some i) : i < s.length := by
  induction s generalizing i with
  | nil => simp [strrchr] at h
  | cons x xs ih =>
    simp only [strrchr] at h
    cases hx : strrchr xs c with
    | some k =>
      rw [hx] at h
      simp only [Option.some.injEq] at h
      have := ih hx
      simp only [List.length_cons]
      omega
    | none =>
      rw [hx] at h
      by_cases hc : x = c
      · simp [hc] at h
        simp [← h]
      · simp [hc] at h

theorem strrchr_get {s : List Nat} {c i : Nat} (h : strrchr s c = some i) : s[i]? = some c := by
  induction s generalizing i with
  | nil => simp [strrchr] at h
  | cons x xs ih =>
    simp only [strrchr] at h
    cases hx : strrchr xs c with
    | some k =>
      rw [hx] at h
      simp only [Option.some.injEq] at h
      subst h
      simpa using ih hx
    | none =>
      rw [hx] at h
      by_cases hc : x = c
      · simp [hc] at h
        simp [← h, hc]
      · simp [hc] at h

theorem cstr_cons (x : Nat) (xs : List Nat) :
    cstr (x :: xs) = if x = 0 then [] else x :: cstr xs := by
  by_cases hx : x = 0
  · simp [cstr, hx]
  · simp [cstr, hx, List.takeWhile_cons]

theorem zero_not_mem_cstr (buf : List Nat) : 0 ∉ cstr buf := by
  intro h
  have := List.mem_takeWhile_imp h
  simp at this

theorem cstr_append_nul {l : List Nat} (h : 0 ∉ l) : cstr (l ++ [0]) = l := by
  induction l with
  | nil => simp [cstr]
  | cons x xs ih =>
    have hx : x ≠ 0 := fun e => h (by simp [e])
    have hxs : 0 ∉ xs := fun e => h (by simp [e])
    rw [List.cons_append, cstr_cons, if_neg hx, ih hxs]

theorem cstr_set_zero {buf : List Nat} {i : Nat} (h : i < (cstr buf).length) :
    cstr (buf.set i 0) = (cstr buf).take i := by
  induction buf generalizing i with
  | nil => simp [cstr] at h
  | cons x xs ih =>
    rw [cstr_cons] at h ⊢
    by_cases hx : x = 0
    · simp [hx] at h
    · rw [if_neg hx] at h ⊢
      cases i with
      | zero => simp [cstr_cons]
      | succ k =>
        simp only [List.length_cons, Nat.add_lt_add_iff_right] at h
        simp [List.set, cstr_cons, hx, ih h]

theorem set_restore {buf : List Nat} {i c : Nat} (h : (cstr buf)[i]? = some c) :
    (buf.set i 0).set i c = buf := by
  induction buf generalizing i with
  | nil => simp [cstr] at h
  | cons x xs ih =>
    rw [cstr_cons] at h
    by_cases hx : x = 0
    · simp [hx] at h
    · rw [if_neg hx] at h
      cases i with
      | zero =>
        simp at h
        simp [h]
      | succ k =>
        simp at h
        simp [List.set, ih h]

/-! ## Lemmas on the heap -/

theorem set_self_getD {α : Type} (l : List α) (n : Nat) (d : α) : l.set n (l.getD n d) = l := by
  induction l generalizing n with
  | nil => simp
  | cons x xs ih =>
    cases n with
    | zero => simp
    | succ k =>
      have := ih k
      simp only [List.getD_eq_getElem?_getD] at this
      simp [List.set, this]

theorem getD_set_self {α : Type} (l : List α) (n : Nat) (v d : α) (h : n < l.length) :
    (l.set n v).getD n d = v := by
  simp [List.getD_eq_getElem?_getD, List.getElem?_set_self h]

theorem length_poke (heap : List (List Nat)) (p i v : Nat) :
    (poke heap p i v).length = heap.length := by
  simp [poke]

theorem deref_poke_zero {heap : List (List Nat)} {b ptr : Nat} (hb : b < heap.length)
    (h : ptr < (deref heap b).length) :
    deref (poke heap b ptr 0) b = (deref heap b).take ptr := by
  unfold deref poke at *
  rw [getD_set_self _ _ _ _ hb]
  exact cstr_set_zero h

theorem poke_restore {heap : List (List Nat)} {b ptr c : Nat} (hb : b < heap.length)
    (h : (deref heap b)[ptr]? = some c) :
    poke (poke heap b ptr 0) b ptr c = heap := by
  unfold deref at h
  unfold poke
  rw [getD_set_self _ _ _ _ hb, List.set_set, set_restore h]
  exact set_self_getD heap b []

theorem poke_append {heap : List (List Nat)} (ex : List (List Nat)) {b : Nat} (i v : Nat)
    (hb : b < heap.length) :
    poke (heap ++ ex) b i v = poke heap b i v ++ ex := by
  unfold poke
  rw [List.getD_append _ _ _ _ hb, List.set_append_left _ _ hb]

theorem deref_append {heap : List (List Nat)} (ex : List (List Nat)) {b : Nat}
    (hb : b < heap.length) :
    deref (heap ++ ex) b = deref heap b := by
  unfold deref
  rw [List.getD_append _ _ _ _ hb]

theorem deref_append_new (heap : List (List Nat)) (buf : List Nat) :
    deref (heap ++ [buf]) heap.length = cstr buf := by
  unfold deref
  rw [List.getD_append_right _ _ _ _ (le_refl _)]
  simp

theorem deref_mem {heap : List (List Nat)} {b : Nat} (hb : b < heap.length) :
    ∃ buf ∈ heap, deref heap b = cstr buf := by
  refine ⟨heap[b], List.getElem_mem hb, ?_⟩
  unfold deref
  rw [List.getD_eq_getElem _ _ hb]

/-! ## Lemmas on the table -/

theorem mem_hash_insert {table : List (List hentry)} {x h k : Nat} {e : hentry}
    (he : e ∈ (hash_insert table x h).getD k []) :
    e = ⟨x, h⟩ ∨ e ∈ table.getD k [] := by
  unfold hash_insert at he
  by_cases hk : k = h
  · subst hk
    by_cases hl : k < table.length
    · rw [getD_set_self _ _ _ _ hl] at he
      simpa using he
    · rw [List.set_eq_of_length_le (Nat.le_of_not_lt hl)] at he
      exact Or.inr he
  · right
    simp only [List.getD_eq_getElem?_getD] at he ⊢
    rwa [List.getElem?_set_ne (Ne.symm hk)] at he

theorem mem_hash_insert_of_mem {table : List (List hentry)} {x h k : Nat} {e : hentry}
    (he : e ∈ table.getD k []) : e ∈ (hash_insert table x h).getD k [] := by
  unfold hash_insert
  by_cases hk : k = h
  · subst hk
    by_cases hl : k < table.length
    · rw [getD_set_self _ _ _ _ hl]
      exact List.mem_cons_of_mem _ he
    · rwa [List.set_eq_of_length_le (Nat.le_of_not_lt hl)]
  · simp only [List.getD_eq_getElem?_getD] at he ⊢
    rwa [List.getElem?_set_ne (Ne.symm hk)]

theorem mem_hash_insert_self {table : List (List hentry)} {x h : Nat} (hl : h < table.length) :
    (⟨x, h⟩ : hentry) ∈ (hash_insert table x h).getD h [] := by
  unfold hash_insert
  rw [getD_set_self _ _ _ _ hl]
  exact List.mem_cons_self _ _

theorem length_hash_insert (table : List (List hentry)) (x h : Nat) :
    (hash_insert table x h).length = table.length := by
  simp [hash_insert]

theorem hash_find_true_iff (heap : List (List Nat)) (table : List (List hentry))
    (s : List Nat) :
    (hash_find heap table s).1 = true ↔
      ∃ e ∈ table.getD (hash_str s % TABLE_SIZE) [],
        e.hash = hash_str s % TABLE_SIZE ∧ deref heap e.str = s := by
  simp [hash_find, List.any_eq_true]

theorem hash_find_snd (heap : List (List Nat)) (table : List (List hentry)) (s : List Nat) :
    (hash_find heap table s).2 = hash_str s % TABLE_SIZE := rfl

/-! ## What `fill` does to the state -/

theorem fill_post (fuel : Nat) : ∀ (st st2 : OnlyState) (b : Nat), b < st.heap.length →
    InRange st.heap st.table → fill fuel st b = some st2 → FillPost st st2 b := by
  induction fuel with
  | zero => intro st st2 b _ _ h; simp [fill] at h
  | succ n ih =>
    intro st st2 b hb hr h
    simp only [fill] at h
    cases hs : strrchr (deref st.heap b) SLASH with
    | none =>
      rw [hs] at h
      simp only [Option.some.injEq] at h
      subst h
      exact ⟨⟨[], by simp, by simp⟩, rfl, hr, fun _ _ he => he, rfl⟩
    | some ptr =>
      rw [hs] at h
      simp only at h
      have hlt := strrchr_lt hs
      have hget := strrchr_get hs
      have hrest : poke (poke st.heap b ptr 0) b ptr SLASH = st.heap := poke_restore hb hget
      have hcut : deref (poke st.heap b ptr 0) b = (deref st.heap b).take ptr :=
        deref_poke_zero hb hlt
      have hdir : dirname (deref st.heap b) = some ((deref st.heap b).take ptr) := by
        simp [dirname, hs]
      split at h
      · simp only [Option.some.injEq] at h
        subst h
        simp only [hrest]
        exact ⟨⟨[], by simp, by simp⟩, rfl, hr, fun _ _ he => he, rfl⟩
      · have hb1 : b < (poke st.heap b ptr 0).length := by rw [length_poke]; exact hb
        have hb2 : b < (poke st.heap b ptr 0 ++
            [deref (poke st.heap b ptr 0) b ++ [0]]).length := by
          rw [List.length_append]; omega
        have hr2 : InRange (poke st.heap b ptr 0 ++ [deref (poke st.heap b ptr 0) b ++ [0]])
            (hash_insert st.table (poke st.heap b ptr 0).length
              (hash_find (poke st.heap b ptr 0) st.table
                (deref (poke st.heap b ptr 0) b)).2) := by
          intro k e he
          rw [List.length_append, length_poke]
          rcases mem_hash_insert he with rfl | he
          · simp [length_poke]
          · have := hr k e he
            omega
        cases hf : fill n { st with
            heap := poke st.heap b ptr 0 ++ [deref (poke st.heap b ptr 0) b ++ [0]],
            table := hash_insert st.table (poke st.heap b ptr 0).length
              (hash_find (poke st.heap b ptr 0) st.table
                (deref (poke st.heap b ptr 0) b)).2 } b with
        | none => rw [hf] at h; simp at h
        | some st4 =>
          rw [hf] at h
          simp only [Option.some.injEq] at h
          subst h
          have post := ih _ st4 b hb2 hr2 hf
          obtain ⟨ex, hex, hanc⟩ := post.heap
          simp only at hex hanc
          refine ⟨⟨[deref (poke st.heap b ptr 0) b ++ [0]] ++ ex, ?_, ?_⟩, ?_, ?_, ?_, ?_⟩
          · simp only
            rw [hex, List.append_assoc, poke_append _ _ _ hb1, hrest]
          · intro x hx
            rw [List.mem_append] at hx
            rcases hx with hx | hx
            · simp only [List.mem_singleton] at hx
              subst hx
              rw [cstr_append_nul (by rw [hcut]; intro hz
                                      exact zero_not_mem_cstr _ (List.mem_of_mem_take hz)), hcut]
              exact Ancestor.parent hdir
            · have := hanc x hx
              rw [deref_append _ hb1, hcut] at this
              exact Ancestor.step hdir this
          · simp only
            rw [post.len]
            exact length_hash_insert _ _ _
          · intro k e he
            simp only at he ⊢
            rw [length_poke]
            exact post.range k e he
          · intro k e he
            exact post.keep k e (mem_hash_insert_of_mem he)
          · exact post.loaded

/-- The recursion of `fill` ends: a budget above the length of the string suffices. -/
theorem fill_total (fuel : Nat) : ∀ (st : OnlyState) (b : Nat), b < st.heap.length →
    (deref st.heap b).length < fuel → ∃ st2, fill fuel st b = some st2 := by
  induction fuel with
  | zero => intro st b _ h; omega
  | succ n ih =>
    intro st b hb hlen
    simp only [fill]
    cases hs : strrchr (deref st.heap b) SLASH with
    | none => exact ⟨st, rfl⟩
    | some ptr =>
      simp only
      have hlt := strrchr_lt hs
      have hcut : deref (poke st.heap b ptr 0) b = (deref st.heap b).take ptr :=
        deref_poke_zero hb hlt
      split
      · exact ⟨_, rfl⟩
      · have hb1 : b < (poke st.heap b ptr 0).length := by rw [length_poke]; exact hb
        have hb2 : b < (poke st.heap b ptr 0 ++
            [deref (poke st.heap b ptr 0) b ++ [0]]).length := by
          rw [List.length_append]; omega
        obtain ⟨st4, h4⟩ := ih { st with
            heap := poke st.heap b ptr 0 ++ [deref (poke st.heap b ptr 0) b ++ [0]],
            table := hash_insert st.table (poke st.heap b ptr 0).length
              (hash_find (poke st.heap b ptr 0) st.table
                (deref (poke st.heap b ptr 0) b)).2 } b hb2
            (by simp only
                rw [deref_append _ hb1, hcut, List.length_take]
                omega)
        rw [h4]
        exact ⟨_, rfl⟩

/-! ## The invariant of the line loop -/

theorem InClosure.mono {S T : List (List Nat)} {q : List Nat} (h : ∀ p ∈ S, p ∈ T)
    (hq : InClosure S q) : InClosure T q := by
  obtain ⟨p, hp, hpq⟩ := hq
  exact ⟨p, h p hp, hpq⟩

theorem good_init : Good ⟨[], List.replicate TABLE_SIZE [], false⟩ [] := by
  refine ⟨by simp, ?_, by simp, by simp⟩
  intro h e he
  simp only [List.getD_eq_getElem?_getD] at he
  by_cases hh : h < TABLE_SIZE
  · rw [List.getElem?_eq_getElem (by simpa using hh)] at he
    simp at he
  · rw [List.getElem?_eq_none (by simpa using hh)] at he
    simp at he

theorem hash_find_mono {heap ex : List (List Nat)} {table table2 : List (List hentry)}
    {s : List Nat} (hr : InRange heap table)
    (hk : ∀ h e, e ∈ table.getD h [] → e ∈ table2.getD h [])
    (h : (hash_find heap table s).1 = true) : (hash_find (heap ++ ex) table2 s).1 = true := by
  rw [hash_find_true_iff] at h ⊢
  obtain ⟨e, he, hh, hd⟩ := h
  exact ⟨e, hk _ e he, hh, by rw [deref_append _ (hr _ e he)]; exact hd⟩

theorem hash_find_sound {heap : List (List Nat)} {table : List (List hentry)}
    {S : List (List Nat)} {s : List Nat} (hr : InRange heap table)
    (hs : ∀ buf ∈ heap, InClosure S (cstr buf))
    (h : (hash_find heap table s).1 = true) : InClosure S s := by
  rw [hash_find_true_iff] at h
  obtain ⟨e, he, _, hd⟩ := h
  obtain ⟨buf, hbuf, hbd⟩ := deref_mem (hr _ e he)
  rw [← hd, hbd]
  exact hs buf hbuf

/-- One turn of the line loop keeps the invariant. -/
theorem good_step {st st2 : OnlyState} {S : List (List Nat)} {l : List Nat} {fuel : Nat}
    (g : Good st S) (hl : 0 ∉ l)
    (hf : fill fuel ⟨st.heap ++ [l ++ [0]],
        hash_insert st.table st.heap.length (hash_str l % TABLE_SIZE), st.loaded⟩
        st.heap.length = some st2) :
    Good st2 (S ++ [l]) := by
  have hlt : hash_str l % TABLE_SIZE < st.table.length := by
    rw [g.len]; exact Nat.mod_lt _ (by decide)
  have hnew : deref (st.heap ++ [l ++ [0]]) st.heap.length = l := by
    rw [deref_append_new, cstr_append_nul hl]
  have hr1 : InRange (st.heap ++ [l ++ [0]])
      (hash_insert st.table st.heap.length (hash_str l % TABLE_SIZE)) := by
    intro k e he
    rw [List.length_append]
    rcases mem_hash_insert he with rfl | he
    · simp
    · have := g.range k e he
      omega
  have post := fill_post fuel _ st2 st.heap.length (by simp) hr1 hf
  obtain ⟨ex, hex, hanc⟩ := post.heap
  simp only at hex hanc
  rw [hnew] at hanc
  refine ⟨?_, post.range, ?_, ?_⟩
  · rw [post.len]
    simp only
    rw [length_hash_insert, g.len]
  · intro buf hbuf
    rw [hex, List.mem_append, List.mem_append] at hbuf
    rcases hbuf with (hbuf | hbuf) | hbuf
    · exact InClosure.mono (fun p hp => List.mem_append_left _ hp) (g.sound buf hbuf)
    · simp only [List.mem_singleton] at hbuf
      subst hbuf
      rw [cstr_append_nul hl]
      exact ⟨l, by simp, Or.inl rfl⟩
    · exact ⟨l, by simp, Or.inr (hanc buf hbuf)⟩
  · intro l2 hl2
    rw [hex]
    apply hash_find_mono hr1 post.keep
    rw [List.mem_append] at hl2
    rcases hl2 with hl2 | hl2
    · exact hash_find_mono g.range (fun h e he => mem_hash_insert_of_mem he) (g.found l2 hl2)
    · simp only [List.mem_singleton] at hl2
      subst hl2
      rw [hash_find_true_iff]
      exact ⟨⟨st.heap.length, hash_str l2 % TABLE_SIZE⟩, mem_hash_insert_self hlt, rfl, hnew⟩

/-- The unfolding of one turn of the line loop on a NUL-free line. -/
theorem load_loop_cons (l : List Nat) (rest : List (List Nat)) (n : Nat) (st : OnlyState)
    (hl : 0 ∉ l) :
    load_loop (l :: rest) n st =
      if (hash_find (st.heap ++ [l ++ [0]]) st.table l).1 then .duplicate n l
      else
        match fill (l.length + 1) ⟨st.heap ++ [l ++ [0]],
            hash_insert st.table st.heap.length (hash_str l % TABLE_SIZE), st.loaded⟩
            st.heap.length with
        | none => .nofuel
        | some st2 => load_loop rest (n + 1) st2 := by
  have hnew : deref (st.heap ++ [l ++ [0]]) st.heap.length = l := by
    rw [deref_append_new, cstr_append_nul hl]
  simp only [load_loop, hnew, hash_find_snd]

theorem fill_line_total (st : OnlyState) (l : List Nat) (hl : 0 ∉ l) :
    ∃ st2, fill (l.length + 1) ⟨st.heap ++ [l ++ [0]],
        hash_insert st.table st.heap.length (hash_str l % TABLE_SIZE), st.loaded⟩
        st.heap.length = some st2 := by
  apply fill_total
  · simp
  · simp only
    rw [deref_append_new, cstr_append_nul hl]
    omega

/-- A load that ends normally leaves the invariant for all the lines, with `loaded` set. -/
theorem load_loop_ok : ∀ (rest : List (List Nat)) (n : Nat) (st st2 : OnlyState)
    (S : List (List Nat)), Good st S → (∀ l ∈ rest, 0 ∉ l) →
    load_loop rest n st = .ok st2 → Good st2 (S ++ rest) ∧ st2.loaded = true := by
  intro rest
  induction rest with
  | nil =>
    intro n st st2 S g _ h
    simp only [load_loop, LoadResult.ok.injEq] at h
    subst h
    simp only [List.append_nil]
    exact ⟨⟨g.len, g.range, g.sound, g.found⟩, trivial⟩
  | cons l rest ih =>
    intro n st st2 S g hz h
    have hl : 0 ∉ l := hz l (by simp)
    rw [load_loop_cons l rest n st hl] at h
    split at h
    · simp at h
    · obtain ⟨st1, h1⟩ := fill_line_total st l hl
      rw [h1] at h
      simp only at h
      have := ih (n + 1) st1 st2 (S ++ [l]) (good_step g hl h1)
        (fun x hx => hz x (by simp [hx])) h
      simpa using this

/-- The recursion budget given to `fill` is never used up. -/
theorem load_loop_fuel : ∀ (rest : List (List Nat)) (n : Nat) (st : OnlyState)
    (S : List (List Nat)), Good st S → (∀ l ∈ rest, 0 ∉ l) →
    load_loop rest n st ≠ .nofuel := by
  intro rest
  induction rest with
  | nil =>
    intro n st S _ _
    simp [load_loop]
  | cons l rest ih =>
    intro n st S g hz
    have hl : 0 ∉ l := hz l (by simp)
    rw [load_loop_cons l rest n st hl]
    split
    · simp
    · obtain ⟨st1, h1⟩ := fill_line_total st l hl
      rw [h1]
      exact ih (n + 1) st1 (S ++ [l]) (good_step g hl h1) (fun x hx => hz x (by simp [hx]))

/-- A line that was read before, or a later repetition, stops the loop with a duplicate error
at some line up to the repeated one; that line is in the closure of the lines before it. -/
theorem load_loop_dup : ∀ (rest : List (List Nat)) (n : Nat) (st : OnlyState)
    (S : List (List Nat)) (j : Nat), Good st S → (∀ l ∈ rest, 0 ∉ l) → j < rest.length →
    (rest.getD j [] ∈ S ∨ ∃ i, i < j ∧ rest.getD i [] = rest.getD j []) →
    ∃ k, k ≤ j ∧ load_loop rest n st = .duplicate (n + k) (rest.getD k []) ∧
      InClosure (S ++ rest.take k) (rest.getD k []) := by
  intro rest
  induction rest with
  | nil => intro n st S j _ _ hj; simp at hj
  | cons l rest ih =>
    intro n st S j g hz hj hdup
    have hl : 0 ∉ l := hz l (by simp)
    rw [load_loop_cons l rest n st hl]
    by_cases hfind : (hash_find (st.heap ++ [l ++ [0]]) st.table l).1 = true
    · refine ⟨0, Nat.zero_le _, by simp [hfind], ?_⟩
      simp only [List.take_zero, List.append_nil, List.getD_cons_zero]
      rw [hash_find_true_iff] at hfind
      obtain ⟨e, he, _, hd⟩ := hfind
      rw [deref_append _ (g.range _ e he)] at hd
      obtain ⟨buf, hbuf, hbd⟩ := deref_mem (g.range _ e he)
      rw [← hd, hbd]
      exact g.sound buf hbuf
    · rw [if_neg hfind]
      obtain ⟨st1, h1⟩ := fill_line_total st l hl
      rw [h1]
      simp only
      have g1 := good_step g hl h1
      cases j with
      | zero =>
        exfalso
        rcases hdup with hS | ⟨i, hi, _⟩
        · simp only [List.getD_cons_zero] at hS
          exact hfind (hash_find_mono g.range (fun _ _ he => he) (g.found l hS))
        · omega
      | succ j2 =>
        have hj2 : j2 < rest.length := by simpa using hj
        have hdup2 : rest.getD j2 [] ∈ S ++ [l] ∨
            ∃ i, i < j2 ∧ rest.getD i [] = rest.getD j2 [] := by
          rcases hdup with hS | ⟨i, hi, hij⟩
          · left
            simp only [List.getD_cons_succ] at hS
            exact List.mem_append_left _ hS
          · cases i with
            | zero =>
              left
              simp only [List.getD_cons_zero, List.getD_cons_succ] at hij
              rw [← hij]
              simp
            | succ i2 =>
              right
              simp only [List.getD_cons_succ] at hij
              exact ⟨i2, by omega, hij⟩
        obtain ⟨k, hk, hres, hcl⟩ := ih (n + 1) st1 (S ++ [l]) j2 g1
          (fun x hx => hz x (by simp [hx])) hj2 hdup2
        refine ⟨k + 1, by omega, ?_, ?_⟩
        · rw [hres]
          simp only [List.getD_cons_succ]
          congr 1
          omega
        · simp only [List.getD_cons_succ, List.take_succ_cons]
          simpa using hcl

/-! ## Lemmas on `check_excludes` -/

theorem strchr_none_iff (p : List Nat) (c : Nat) : strchr p c = none ↔ c ∉ p := by
  induction p with
  | nil => simp [strchr]
  | cons x xs ih =>
    by_cases hx : x = c
    · simp [strchr, hx]
    · have hx2 : ¬ c = x := fun e => hx e.symm
      simp [strchr, hx, hx2, ih]

theorem strrchr_none_iff (s : List Nat) (c : Nat) : strrchr s c = none ↔ c ∉ s := by
  induction s with
  | nil => simp [strrchr]
  | cons x xs ih =>
    simp only [strrchr]
    cases hs : strrchr xs c with
    | some k =>
      have : ¬ c ∉ xs := fun hn => by rw [ih.2 hn] at hs; simp at hs
      simp only [List.mem_cons, not_or]
      constructor
      · intro h; simp at h
      · intro h; exact absurd h.2 this
    | none =>
      have hxs := ih.1 hs
      by_cases hx : x = c
      · simp [hx]
      · have hx2 : ¬ c = x := fun e => hx e.symm
        simp [hx, hx2, hxs]

theorem strrchr_drop {s : List Nat} {c i : Nat} (h : strrchr s c = some i) :
    c ∉ s.drop (i + 1) := by
  induction s generalizing i with
  | nil => simp [strrchr] at h
  | cons x xs ih =>
    simp only [strrchr] at h
    cases hs : strrchr xs c with
    | some k =>
      rw [hs] at h
      simp only [Option.some.injEq] at h
      subst h
      simpa using ih hs
    | none =>
      rw [hs] at h
      by_cases hx : x = c
      · simp [hx] at h
        subst h
        simpa using (strrchr_none_iff xs c).1 hs
      · simp [hx] at h

theorem final_component_no_slash (s : List Nat) : SLASH ∉ final_component s := by
  unfold final_component
  cases hs : strrchr s SLASH with
  | some c => exact strrchr_drop hs
  | none => exact (strrchr_none_iff s SLASH).1 hs

theorem final_component_of_no_slash {s : List Nat} (h : SLASH ∉ s) : final_component s = s := by
  unfold final_component
  rw [(strrchr_none_iff s SLASH).2 h]

theorem check_excludes_loop_cons_no_slash (lib : Libc) (p : List Nat) (rest : List (List Nat))
    (s : List Nat) (hp : SLASH ∉ p) :
    check_excludes_loop lib (p :: rest) s =
      if lib.fnmatch p (final_component s) lib.FNM_PATHNAME = 0 then 1
      else check_excludes_loop lib rest (final_component s) := by
  simp only [check_excludes_loop, (strchr_none_iff p SLASH).2 hp, if_true]
  rfl

theorem check_excludes_loop_cons_slash (lib : Libc) (p : List Nat) (rest : List (List Nat))
    (s : List Nat) (hp : SLASH ∈ p) :
    check_excludes_loop lib (p :: rest) s =
      if lib.fnmatch p s lib.FNM_PATHNAME = 0 then 1
      else check_excludes_loop lib rest s := by
  have : ¬ strchr p SLASH = none := fun h => (strchr_none_iff p SLASH).1 h hp
  simp only [check_excludes_loop, this, if_false]

theorem check_excludes_loop_values (lib : Libc) (L : List (List Nat)) :
    ∀ s, check_excludes_loop lib L s = 1 ∨ check_excludes_loop lib L s = 0 := by
  induction L with
  | nil => intro s; right; rfl
  | cons p rest ih =>
    intro s
    by_cases hp : SLASH ∈ p
    · rw [check_excludes_loop_cons_slash lib p rest s hp]
      split
      · left; rfl
      · exact ih _
    · rw [check_excludes_loop_cons_no_slash lib p rest s hp]
      split
      · left; rfl
      · exact ih _

theorem check_excludes_loop_no_slash (lib : Libc) (L : List (List Nat))
    (h : ∀ p ∈ L, SLASH ∉ p) : ∀ s,
    check_excludes_loop lib L s = 1 ↔
      ∃ p ∈ L, lib.fnmatch p (final_component s) lib.FNM_PATHNAME = 0 := by
  induction L with
  | nil => intro s; simp [check_excludes_loop]
  | cons p rest ih =>
    intro s
    rw [check_excludes_loop_cons_no_slash lib p rest s (h p (by simp))]
    have ih2 := ih (fun q hq => h q (by simp [hq])) (final_component s)
    rw [final_component_of_no_slash (final_component_no_slash s)] at ih2
    by_cases hm : lib.fnmatch p (final_component s) lib.FNM_PATHNAME = 0
    · simp [hm]
    · simp [hm, ih2]

theorem check_excludes_loop_no_match (lib : Libc) (L : List (List Nat))
    (h : ∀ p ∈ L, ∀ s, lib.fnmatch p s lib.FNM_PATHNAME ≠ 0) :
    ∀ s, check_excludes_loop lib L s = 0 := by
  induction L with
  | nil => intro s; rfl
  | cons p rest ih =>
    intro s
    simp only [check_excludes_loop]
    rw [if_neg (h p (by simp) _)]
    exact ih (fun q hq => h q (by simp [hq])) _

/-! ## Lemmas on traces -/

theorem headers_written_append (a b : List Event) :
    headers_written (a ++ b) = headers_written a ++ headers_written b := by
  induction a with
  | nil => rfl
  | cons ev a ih => cases ev <;> simp [headers_written, ih]

theorem data_events_silent (tr : List Event) (h : ∀ ev ∈ tr, is_data_event ev = true) :
    headers_written tr = [] ∧ descended tr = [] ∧ header_results tr = [] ∧
      disk_yielded tr = [] := by
  induction tr with
  | nil => exact ⟨rfl, rfl, rfl, rfl⟩
  | cons ev tr ih =>
    have h1 := h ev (by simp)
    have ih2 := ih (fun x hx => h x (by simp [hx]))
    cases ev <;> simp_all [is_data_event, headers_written, descended, header_results,
      disk_yielded]

theorem write_data_loop_events {σ : Type} (W : World σ) (mt : mtree) (fd : Int) (fuel : Nat) :
    ∀ w, ∀ ev ∈ (write_data_loop W mt fd fuel w).2.1, is_data_event ev = true := by
  induction fuel with
  | zero => intro w ev h; simp [write_data_loop] at h
  | succ n ih =>
    intro w ev h
    simp only [write_data_loop] at h
    split at h
    · simp only [List.mem_cons, List.mem_singleton, List.not_mem_nil, or_false] at h
      rcases h with rfl | rfl | rfl | rfl <;> rfl
    · split at h
      · simp only [List.mem_cons] at h
        rcases h with rfl | rfl | h
        · rfl
        · rfl
        · exact ih _ ev h
      · simp only [List.mem_cons, List.mem_singleton, List.not_mem_nil, or_false] at h
        rcases h with rfl | rfl | rfl <;> rfl

theorem write_data_events {σ : Type} (W : World σ) (mt : mtree) (path : List Nat)
    (fuel : Nat) (w : σ) :
    ∀ ev ∈ (mtree_write_data W mt path fuel w).2.1, is_data_event ev = true := by
  intro ev h
  simp only [mtree_write_data] at h
  split at h
  · simp only [List.mem_cons, List.mem_singleton, List.not_mem_nil, or_false] at h
    rcases h with rfl | rfl <;> rfl
  · simp only [List.mem_cons] at h
    rcases h with rfl | h
    · rfl
    · exact write_data_loop_events W mt _ fuel _ ev h

/-! ## Lemmas on the loops -/

theorem for_loop_induct {σ : Type} (body : Nat → σ → Step σ) (P : Status → List Event → Prop)
    (h0 : P .running [])
    (hstop : ∀ n w st, (body n w).stop = some st → P st (body n w).events)
    (hcont : ∀ n w st tr, (body n w).stop = none → P st tr → P st ((body n w).events ++ tr)) :
    ∀ fuel w, P (for_loop body fuel w).status (for_loop body fuel w).trace := by
  intro fuel
  induction fuel with
  | zero => intro w; exact h0
  | succ n ih =>
    intro w
    simp only [for_loop]
    cases hs : (body n w).stop with
    | some st => exact hstop n w st hs
    | none => exact hcont n w _ _ hs (ih _)

theorem cwalk_body_turn {σ : Type} (W : World σ) (lib : Libc) (only : OnlyState) (mt : mtree)
    (n : Nat) (w : σ) : CwalkTurn lib only mt (cwalk_body W lib only mt n w) := by
  unfold cwalk_body
  simp only
  split
  · rename_i h
    exact CwalkTurn.eof _ _ _ h
  · rename_i hEOF
    split
    · rename_i h
      exact CwalkTurn.read_error _ _ _ hEOF h
    · rename_i hOK
      split
      · rename_i hex
        exact CwalkTurn.filtered _ _ _ hEOF hOK (by simp [accepted, hex])
      · rename_i hex
        split
        · rename_i hfo
          simp only [Bool.not_eq_true'] at hfo
          exact CwalkTurn.filtered _ _ _ hEOF hOK (by simp [accepted, hfo])
        · rename_i hfo
          simp only [Bool.not_eq_true', Bool.not_eq_false] at hfo
          have hacc : accepted lib only mt (W.disk_next_header w).2.1 = true := by
            simp [accepted, hfo, hex]
          split
          · rename_i hf
            exact CwalkTurn.fatal _ _ _ _ hEOF hOK hacc hf
          · rename_i hf
            split
            · split
              · exact CwalkTurn.written _ _ _ _ _ _ hEOF hOK hacc (by omega)
                  (write_data_events W mt _ n _) (Or.inr rfl)
              · exact CwalkTurn.written _ _ _ _ _ _ hEOF hOK hacc (by omega)
                  (write_data_events W mt _ n _) (Or.inl rfl)
            · have := @CwalkTurn.written σ lib only mt
                (W.disk_next_header w).1
                (W.write_header (W.disk_descend (W.disk_next_header w).2.2)
                  (W.disk_next_header w).2.1).1
                (W.disk_next_header w).2.1 []
                (W.write_header (W.disk_descend (W.disk_next_header w).2.2)
                  (W.disk_next_header w).2.1).2 none hEOF hOK hacc (by omega)
                (by simp) (Or.inl rfl)
              simpa using this

theorem convert_body_turn {σ : Type} (W : World σ) (mt : mtree) (n : Nat) (w : σ) :
    ConvertTurn (convert_body W mt n w) := by
  unfold convert_body
  simp only
  split
  · rename_i h
    exact ConvertTurn.eof _ _ _ h
  · rename_i hEOF
    split
    · rename_i h
      exact ConvertTurn.read_error _ _ _ hEOF h
    · rename_i hOK
      split
      · rename_i hf
        exact ConvertTurn.fatal _ _ _ _ hEOF hOK hf
      · rename_i hf
        exact ConvertTurn.written _ _ _ _ hEOF hOK (by omega)

/-! ## Lemmas on the header discipline -/

theorem warn_silent (c : Prop) [Decidable c] :
    headers_written (if c then [Event.warnc .header_write] else []) = [] ∧
    descended (if c then [Event.warnc .header_write] else []) = [] ∧
    header_results (if c then [Event.warnc .header_write] else []) = [] ∧
    disk_yielded (if c then [Event.warnc .header_write] else []) = [] ∧
    spec_yielded (if c then [Event.warnc .header_write] else []) = [] := by
  split <;> exact ⟨rfl, rfl, rfl, rfl, rfl⟩

theorem discipline_skip (st : Status) (evs tr : List Event)
    (h : ∀ ev ∈ evs, is_write_header ev = false) :
    header_discipline st (evs ++ tr) ↔ header_discipline st tr := by
  induction evs with
  | nil => simp
  | cons ev evs ih =>
    have h1 := h ev (by simp)
    have ih2 := ih (fun x hx => h x (by simp [hx]))
    cases ev <;> simp_all [header_discipline, is_write_header]

theorem data_not_write_header (data : List Event) (h : ∀ ev ∈ data, is_data_event ev = true) :
    ∀ ev ∈ data, is_write_header ev = false := by
  intro ev hev
  have := h ev hev
  cases ev <;> simp_all [is_data_event, is_write_header]

theorem data_head (data tr : List Event) (st : Status)
    (h : ∀ ev ∈ data, is_data_event ev = true) (ht : starts_with_read st tr) :
    (data ++ tr).head? ≠ some (.warnc .header_write) := by
  cases data with
  | nil =>
    rcases ht with ⟨rfl, _⟩ | ⟨ev, hev, hn⟩
    · simp
    · simp only [List.nil_append, hev]
      intro he
      simp only [Option.some.injEq] at he
      subst he
      simp [is_next_header] at hn
  | cons d data =>
    have := h d (by simp)
    simp only [List.cons_append, List.head?_cons]
    intro he
    simp only [Option.some.injEq] at he
    subst he
    simp [is_data_event] at this

theorem discipline_written (st : Status) (e : archive_entry) (r2 : Int)
    (data tr : List Event) (hr : ARCHIVE_FAILED < r2)
    (hd : ∀ ev ∈ data, is_data_event ev = true)
    (ht : header_discipline st tr) (hs : starts_with_read st tr) :
    header_discipline st (.write_header e r2 ::
      ((if r2 < ARCHIVE_OK then [Event.warnc .header_write] else []) ++ data ++ tr)) := by
  simp only [header_discipline]
  refine ⟨fun h => absurd h (by omega), ?_, ?_, ?_, ?_⟩
  · intro _ hw
    simp [hw]
  · intro hok
    have hw : ¬ r2 < ARCHIVE_OK := by omega
    simp only [hw, if_false, List.nil_append]
    exact data_head data tr st hd hs
  · intro _
    rcases hs with ⟨_, hrun⟩ | ⟨ev, hev, hn⟩
    · exact Or.inl hrun
    · right
      refine ⟨ev, ?_, hn⟩
      have : ev ∈ tr := List.mem_of_mem_head? hev
      simp [this]
  · rw [List.append_assoc, discipline_skip, discipline_skip]
    · exact ht
    · exact data_not_write_header data hd
    · intro ev hev
      split at hev
      · simp only [List.mem_singleton] at hev
        subst hev
        rfl
      · simp at hev

theorem discipline_fatal (e : archive_entry) (r2 : Int) (hr : r2 ≤ ARCHIVE_FAILED) :
    header_discipline (.exited 1) [.write_header e r2, .errc .header_write] := by
  have hFO : ARCHIVE_FAILED < ARCHIVE_OK := by decide
  simp only [header_discipline]
  refine ⟨?_, ?_, ?_, ?_, ?_⟩
  all_goals first | trivial | (intros; omega) | (intros; simp)

theorem discipline_disk_header (st : Status) (r : Int) (e : archive_entry) (tr : List Event) :
    header_discipline st (.disk_header r e :: tr) = header_discipline st tr := by
  simp only [header_discipline]

theorem discipline_spec_header (st : Status) (r : Int) (e : archive_entry) (tr : List Event) :
    header_discipline st (.spec_header r e :: tr) = header_discipline st tr := by
  simp only [header_discipline]

theorem discipline_descend (st : Status) (e : archive_entry) (tr : List Event) :
    header_discipline st (.descend e :: tr) = header_discipline st tr := by
  simp only [header_discipline]

/-- The header discipline of generate mode, together with the shape of the rest of the run. -/
theorem cwalk_discipline {σ : Type} (W : World σ) (lib : Libc) (only : OnlyState) (mt : mtree)
    (fuel : Nat) (w : σ) :
    header_discipline (mtree_cwalk W lib only mt fuel w).status
        (mtree_cwalk W lib only mt fuel w).trace ∧
      starts_with_read (mtree_cwalk W lib only mt fuel w).status
        (mtree_cwalk W lib only mt fuel w).trace := by
  unfold mtree_cwalk
  refine for_loop_induct (cwalk_body W lib only mt)
    (fun st tr => header_discipline st tr ∧ starts_with_read st tr) ?_ ?_ ?_ fuel w
  · exact ⟨trivial, Or.inl ⟨rfl, rfl⟩⟩
  · intro n w st hs
    have t := cwalk_body_turn W lib only mt n w
    generalize cwalk_body W lib only mt n w = s at t hs
    cases t with
    | eof r e w2 h => exact ⟨by simp [header_discipline], Or.inr ⟨_, rfl, rfl⟩⟩
    | read_error r e w2 h1 h2 => exact ⟨by simp [header_discipline], Or.inr ⟨_, rfl, rfl⟩⟩
    | filtered r e w2 h1 h2 h3 => simp at hs
    | fatal r r2 e w2 h1 h2 h3 h4 =>
      simp only [Option.some.injEq] at hs
      subst hs
      refine ⟨?_, Or.inr ⟨_, rfl, rfl⟩⟩
      rw [discipline_disk_header, discipline_descend]
      exact discipline_fatal e r2 h4
    | written r r2 e data w2 stop h1 h2 h3 h4 h5 h6 =>
      simp only at hs
      rcases h6 with h6 | h6
      · rw [h6] at hs; simp at hs
      · rw [h6] at hs
        simp only [Option.some.injEq] at hs
        subst hs
        refine ⟨?_, Or.inr ⟨_, rfl, rfl⟩⟩
        simp only [List.cons_append, List.nil_append]
        rw [discipline_disk_header, discipline_descend]
        have := discipline_written .running e r2 data [] h4 h5 trivial (Or.inl ⟨rfl, rfl⟩)
        simpa only [List.append_nil] using this
  · intro n w st tr hs hP
    obtain ⟨hd, hsr⟩ := hP
    have t := cwalk_body_turn W lib only mt n w
    generalize cwalk_body W lib only mt n w = s at t hs
    cases t with
    | eof r e w2 h => simp at hs
    | read_error r e w2 h1 h2 => simp at hs
    | filtered r e w2 h1 h2 h3 =>
      refine ⟨?_, Or.inr ⟨_, rfl, rfl⟩⟩
      simp only [List.cons_append, List.nil_append]
      rw [discipline_disk_header]
      exact hd
    | fatal r r2 e w2 h1 h2 h3 h4 => simp at hs
    | written r r2 e data w2 stop h1 h2 h3 h4 h5 h6 =>
      refine ⟨?_, Or.inr ⟨_, rfl, rfl⟩⟩
      simp only [List.cons_append, List.nil_append]
      rw [discipline_disk_header, discipline_descend]
      exact discipline_written st e r2 data tr h4 h5 hd hsr

/-- The header discipline of convert mode, together with the shape of the rest of the run. -/
theorem convert_discipline {σ : Type} (W : World σ) (mt : mtree) (fuel : Nat) (w : σ) :
    header_discipline (mtree_convert W mt fuel w).status (mtree_convert W mt fuel w).trace ∧
      starts_with_read (mtree_convert W mt fuel w).status
        (mtree_convert W mt fuel w).trace := by
  unfold mtree_convert
  refine for_loop_induct (convert_body W mt)
    (fun st tr => header_discipline st tr ∧ starts_with_read st tr) ?_ ?_ ?_ fuel w
  · exact ⟨trivial, Or.inl ⟨rfl, rfl⟩⟩
  · intro n w st hs
    have t := convert_body_turn W mt n w
    generalize convert_body W mt n w = s at t hs
    cases t with
    | eof r e w2 h => exact ⟨by simp [header_discipline], Or.inr ⟨_, rfl, rfl⟩⟩
    | read_error r e w2 h1 h2 => exact ⟨by simp [header_discipline], Or.inr ⟨_, rfl, rfl⟩⟩
    | fatal r r2 e w2 h1 h2 h4 =>
      simp only [Option.some.injEq] at hs
      subst hs
      refine ⟨?_, Or.inr ⟨_, rfl, rfl⟩⟩
      rw [discipline_spec_header]
      exact discipline_fatal e r2 h4
    | written r r2 e w2 h1 h2 h4 => simp at hs
  · intro n w st tr hs hP
    obtain ⟨hd, hsr⟩ := hP
    have t := convert_body_turn W mt n w
    generalize convert_body W mt n w = s at t hs
    cases t with
    | eof r e w2 h => simp at hs
    | read_error r e w2 h1 h2 => simp at hs
    | fatal r r2 e w2 h1 h2 h4 => simp at hs
    | written r r2 e w2 h1 h2 h4 =>
      refine ⟨?_, Or.inr ⟨_, rfl, rfl⟩⟩
      simp only [List.cons_append, List.nil_append]
      rw [discipline_spec_header]
      have := discipline_written st e r2 [] tr h4 (by simp) hd hsr
      simpa only [List.append_nil] using this

/-! ## Complete runs on the small world -/

theorem script_write_data (mt : mtree) (path : List Nat) (n : Nat) (w : Script) :
    (mtree_write_data script_world mt path (n + 1) w).1 = some 0 ∧
    (mtree_write_data script_world mt path (n + 1) w).2.2 = w ∧
    ∀ ev ∈ (mtree_write_data script_world mt path (n + 1) w).2.1, is_data_event ev = true := by
  refine ⟨?_, ?_, write_data_events script_world mt path (n + 1) w⟩
  · simp [mtree_write_data, write_data_loop, script_world]
  · simp [mtree_write_data, write_data_loop, script_world]

theorem for_loop_succ {σ : Type} (body : Nat → σ → Step σ) (n : Nat) (w : σ) :
    for_loop body (n + 1) w =
      match (body n w).stop with
      | some st => ⟨st, (body n w).events, (body n w).world⟩
      | none => (for_loop body n (body n w).world).after (body n w).events := rfl

theorem for_loop_continue {σ : Type} (body : Nat → σ → Step σ) (n : Nat) (w : σ)
    (h : (body n w).stop = none) :
    (for_loop body (n + 1) w).status = (for_loop body n (body n w).world).status ∧
    (for_loop body (n + 1) w).trace =
      (body n w).events ++ (for_loop body n (body n w).world).trace := by
  rw [for_loop_succ, h]
  exact ⟨rfl, rfl⟩

/-- On the small world a budget of one turn more than the number of records completes
convert mode: it returns 0 and the records written are the records of the spec. -/
theorem convert_script_complete (mt : mtree) (disk : List archive_entry) (r : Int)
    (hr : ARCHIVE_FAILED < r) : ∀ spec : List archive_entry,
    (mtree_convert script_world mt (spec.length + 1) ⟨disk, spec, r⟩).status = .returned 0 ∧
    headers_written (mtree_convert script_world mt (spec.length + 1) ⟨disk, spec, r⟩).trace =
      spec := by
  intro spec
  induction spec with
  | nil => exact ⟨rfl, rfl⟩
  | cons e rest ih =>
    have hr2 : ¬ r ≤ ARCHIVE_FAILED := by omega
    have hbody : convert_body script_world mt (rest.length + 1) ⟨disk, e :: rest, r⟩ =
        ⟨[.spec_header ARCHIVE_OK e, .write_header e r] ++
          (if r < ARCHIVE_OK then [Event.warnc .header_write] else []), ⟨disk, rest, r⟩,
          none⟩ := by
      simp [convert_body, script_world, hr2]
    obtain ⟨w1, _, _, _, _⟩ := warn_silent (r < ARCHIVE_OK)
    unfold mtree_convert at ih ⊢
    obtain ⟨c1, c2⟩ := for_loop_continue (convert_body script_world mt) (rest.length + 1)
      ⟨disk, e :: rest, r⟩ (by rw [hbody])
    rw [hbody] at c1 c2
    simp only [List.length_cons]
    rw [c1, c2]
    refine ⟨ih.1, ?_⟩
    simp only [List.cons_append, List.nil_append, List.append_assoc]
    simp only [headers_written, headers_written_append, w1, List.nil_append, ih.2]

/-- One turn of generate mode on the small world, at a disk entry `e`. -/
theorem script_cwalk_body (lib : Libc) (only : OnlyState) (mt : mtree)
    (spec rest : List archive_entry) (e : archive_entry) (r : Int) (n : Nat)
    (hr : ARCHIVE_FAILED < r) :
    (cwalk_body script_world lib only mt (n + 1) ⟨e :: rest, spec, r⟩).stop = none ∧
    (cwalk_body script_world lib only mt (n + 1) ⟨e :: rest, spec, r⟩).world =
      ⟨rest, spec, r⟩ ∧
    headers_written (cwalk_body script_world lib only mt (n + 1) ⟨e :: rest, spec, r⟩).events =
      [e].filter (accepted lib only mt) := by
  have hr2 : ¬ r ≤ ARCHIVE_FAILED := by omega
  have hnx : script_world.disk_next_header ⟨e :: rest, spec, r⟩ =
      (ARCHIVE_OK, e, ⟨rest, spec, r⟩) := rfl
  have hde : ∀ w, script_world.disk_descend w = w := fun _ => rfl
  have hwh : ∀ w x, script_world.write_header w x = (w.header_result, w) := fun _ _ => rfl
  have h1 : ¬ ARCHIVE_OK = ARCHIVE_EOF := by decide
  have h2 : ¬ ARCHIVE_OK < ARCHIVE_OK := by decide
  obtain ⟨d1, d2, d3⟩ := script_write_data mt e.sourcepath n ⟨rest, spec, r⟩
  obtain ⟨s1, _, _, _⟩ := data_events_silent _ d3
  obtain ⟨w1, _, _, _, _⟩ := warn_silent (r < ARCHIVE_OK)
  unfold cwalk_body
  simp only [hnx, hde, hwh, h1, h2, if_false, hr2]
  by_cases hex : check_excludes lib e mt = 1
  · have hacc : accepted lib only mt e = false := by simp [accepted, hex]
    simp only [hex, if_true, headers_written, List.filter_cons, hacc]
    exact ⟨trivial, trivial, by simp⟩
  · simp only [hex, if_false]
    by_cases hfo : mtree_find_only only e.pathname = true
    · have hacc : accepted lib only mt e = true := by simp [accepted, hex, hfo]
      simp only [hfo, Bool.not_true, Bool.false_eq_true, if_false]
      by_cases hreg : e.filetype = AE_IFREG
      · simp only [hreg, if_true, d1, d2]
        refine ⟨trivial, trivial, ?_⟩
        simp only [List.cons_append, List.nil_append, List.append_assoc]
        simp only [headers_written, headers_written_append, w1, s1, List.filter_cons, hacc]
        simp
      · simp only [hreg, if_false]
        refine ⟨trivial, trivial, ?_⟩
        simp only [List.cons_append, List.nil_append]
        simp only [headers_written, w1, List.filter_cons, hacc]
        simp
    · have hfo2 : mtree_find_only only e.pathname = false := by simpa using hfo
      have hacc : accepted lib only mt e = false := by simp [accepted, hfo2]
      simp only [hfo2, Bool.not_false, if_true, headers_written, List.filter_cons, hacc]
      exact ⟨trivial, trivial, by simp⟩

/-- On the small world a budget of one turn more than the number of disk entries completes
generate mode: it returns 0 and the entries written are the accepted disk entries. -/
theorem cwalk_script_complete (lib : Libc) (only : OnlyState) (mt : mtree)
    (spec : List archive_entry) (r : Int) (hr : ARCHIVE_FAILED < r) :
    ∀ disk : List archive_entry,
    (mtree_cwalk script_world lib only mt (disk.length + 1) ⟨disk, spec, r⟩).status =
      .returned 0 ∧
    headers_written
        (mtree_cwalk script_world lib only mt (disk.length + 1) ⟨disk, spec, r⟩).trace =
      disk.filter (accepted lib only mt) := by
  intro disk
  induction disk with
  | nil => exact ⟨rfl, rfl⟩
  | cons e rest ih =>
    obtain ⟨hs, hw, he⟩ := script_cwalk_body lib only mt spec rest e r rest.length hr
    unfold mtree_cwalk at ih ⊢
    obtain ⟨c1, c2⟩ := for_loop_continue (cwalk_body script_world lib only mt)
      (rest.length + 1) ⟨e :: rest, spec, r⟩ hs
    rw [hw] at c1 c2
    simp only [List.length_cons]
    rw [c1, c2, headers_written_append, he, ih.2]
    refine ⟨ih.1, ?_⟩
    rw [← List.filter_append]
    rfl

/-! ## Lemmas on the checksum-copy pass -/

theorem write_data_loop_discipline {σ : Type} (W : World σ) (mt : mtree) (fd : Int)
    (fuel : Nat) : ∀ w,
    copy_discipline (write_data_loop W mt fd fuel w).1 (write_data_loop W mt fd fuel w).2.1 := by
  induction fuel with
  | zero => intro w; simp [write_data_loop, copy_discipline]
  | succ n ih =>
    intro w
    simp only [write_data_loop]
    split
    · rename_i hbad
      simp only [copy_discipline, and_true]
      exact fun _ => ⟨fd, rfl⟩
    · rename_i hok
      split
      · simp only [copy_discipline]
        exact ⟨fun h => absurd h hok, ih _⟩
      · simp only [copy_discipline, and_true]
        exact fun h => absurd h hok

theorem write_data_discipline {σ : Type} (W : World σ) (mt : mtree) (path : List Nat)
    (fuel : Nat) (w : σ) :
    copy_discipline (mtree_write_data W mt path fuel w).1
      (mtree_write_data W mt path fuel w).2.1 := by
  simp only [mtree_write_data]
  split
  · rename_i hneg
    simp only [copy_discipline, and_true]
    exact fun _ => trivial
  · rename_i hpos
    simp only [copy_discipline]
    exact ⟨fun h => absurd h hpos, write_data_loop_discipline W mt _ fuel _⟩

theorem copy_skip_cons (st : Status) (ev : Event) (tr : List Event)
    (h : is_data_event ev = false) :
    copy_failures_skip st (ev :: tr) ↔ copy_failures_skip st tr := by
  cases ev <;> simp_all [copy_failures_skip, is_data_event]

theorem copy_skip (st : Status) (pre tr : List Event)
    (h : ∀ ev ∈ pre, is_data_event ev = false) :
    copy_failures_skip st (pre ++ tr) ↔ copy_failures_skip st tr := by
  induction pre with
  | nil => simp
  | cons ev pre ih =>
    rw [List.cons_append, copy_skip_cons st ev _ (h ev (by simp))]
    exact ih (fun x hx => h x (by simp [hx]))

theorem copy_join (st : Status) (res : Option Int) (tr : List Event)
    (ht : copy_failures_skip st tr) (hs : starts_with_read st tr) :
    ∀ data, copy_discipline res data → copy_failures_skip st (data ++ tr) := by
  intro data
  induction data with
  | nil => intro _; simpa using ht
  | cons ev data ih =>
    intro hd
    cases ev with
    | sys_open path fd =>
      simp only [copy_discipline] at hd
      simp only [List.cons_append, copy_failures_skip]
      refine ⟨?_, ih hd.2⟩
      intro hfd
      obtain ⟨hp, _⟩ := hd.1 hfd
      exact ⟨tr, by rw [hp]; rfl, hs⟩
    | write_data len written =>
      simp only [copy_discipline] at hd
      simp only [List.cons_append, copy_failures_skip]
      refine ⟨?_, ih hd.2⟩
      intro hbad
      obtain ⟨⟨fd, hp⟩, _⟩ := hd.1 hbad
      exact ⟨fd, tr, by rw [hp]; rfl, hs⟩
    | disk_header r e => exact ih hd
    | spec_header r e => exact ih hd
    | descend e => exact ih hd
    | write_header e r => exact ih hd
    | sys_read fd len => exact ih hd
    | sys_close fd => exact ih hd
    | warnc d => exact ih hd
    | errc d => exact ih hd

theorem starts_with_read_append (st : Status) (pre tr : List Event)
    (h : ∃ ev, pre.head? = some ev ∧ is_next_header ev = true) :
    starts_with_read st (pre ++ tr) := by
  obtain ⟨ev, hev, hn⟩ := h
  cases pre with
  | nil => simp at hev
  | cons x pre =>
    simp only [List.head?_cons, Option.some.injEq] at hev
    subst hev
    exact Or.inr ⟨x, rfl, hn⟩

/-- One turn of generate mode, split into the events before the checksum-copy pass and the
events of the pass. -/
theorem cwalk_body_copy {σ : Type} (W : World σ) (lib : Libc) (only : OnlyState) (mt : mtree)
    (n : Nat) (w : σ) :
    ∃ pre data res, (cwalk_body W lib only mt n w).events = pre ++ data ∧
      (∀ ev ∈ pre, is_data_event ev = false) ∧
      (∃ ev, pre.head? = some ev ∧ is_next_header ev = true) ∧
      copy_discipline res data ∧
      ((cwalk_body W lib only mt n w).stop = none ∨
        (cwalk_body W lib only mt n w).stop = some .running ∨ data = []) := by
  unfold cwalk_body
  simp only
  split
  · exact ⟨_, [], none, (List.append_nil _).symm, by simp [is_data_event],
      ⟨_, rfl, rfl⟩, trivial, Or.inr (Or.inr rfl)⟩
  · split
    · exact ⟨_, [], none, (List.append_nil _).symm, by simp [is_data_event],
        ⟨_, rfl, rfl⟩, trivial, Or.inr (Or.inr rfl)⟩
    · split
      · exact ⟨_, [], none, (List.append_nil _).symm, by simp [is_data_event],
          ⟨_, rfl, rfl⟩, trivial, Or.inr (Or.inr rfl)⟩
      · split
        · exact ⟨_, [], none, (List.append_nil _).symm, by simp [is_data_event],
            ⟨_, rfl, rfl⟩, trivial, Or.inr (Or.inr rfl)⟩
        · split
          · exact ⟨_, [], none, (List.append_nil _).symm, by simp [is_data_event],
              ⟨_, rfl, rfl⟩, trivial, Or.inr (Or.inr rfl)⟩
          · have hpre : ∀ ev ∈ [Event.disk_header (W.disk_next_header w).1
                  (W.disk_next_header w).2.1, Event.descend (W.disk_next_header w).2.1,
                  Event.write_header (W.disk_next_header w).2.1
                    (W.write_header (W.disk_descend (W.disk_next_header w).2.2)
                      (W.disk_next_header w).2.1).1] ++
                (if (W.write_header (W.disk_descend (W.disk_next_header w).2.2)
                      (W.disk_next_header w).2.1).1 < ARCHIVE_OK
                  then [Event.warnc .header_write] else []),
                is_data_event ev = false := by
              intro ev hev
              split at hev <;> simp at hev <;> rcases hev with rfl | rfl | rfl | rfl <;> rfl
            split
            · split
              · exact ⟨_, _, _, rfl, hpre, ⟨_, rfl, rfl⟩,
                  write_data_discipline W mt _ n _, Or.inr (Or.inl rfl)⟩
              · exact ⟨_, _, _, rfl, hpre, ⟨_, rfl, rfl⟩,
                  write_data_discipline W mt _ n _, Or.inl rfl⟩
            · exact ⟨_, [], none, (List.append_nil _).symm, hpre, ⟨_, rfl, rfl⟩, trivial,
                Or.inl rfl⟩

/-- In every run of generate mode a failed checksum-copy pass is followed by the read of the
next header. -/
theorem cwalk_copy_failures {σ : Type} (W : World σ) (lib : Libc) (only : OnlyState)
    (mt : mtree) (fuel : Nat) (w : σ) :
    copy_failures_skip (mtree_cwalk W lib only mt fuel w).status
        (mtree_cwalk W lib only mt fuel w).trace ∧
      starts_with_read (mtree_cwalk W lib only mt fuel w).status
        (mtree_cwalk W lib only mt fuel w).trace := by
  unfold mtree_cwalk
  refine for_loop_induct (cwalk_body W lib only mt)
    (fun st tr => copy_failures_skip st tr ∧ starts_with_read st tr) ?_ ?_ ?_ fuel w
  · exact ⟨trivial, Or.inl ⟨rfl, rfl⟩⟩
  · intro n w st hs
    obtain ⟨pre, data, res, he, hpre, hhead, hcd, hcases⟩ := cwalk_body_copy W lib only mt n w
    rw [he]
    refine ⟨?_, starts_with_read_append st pre data hhead⟩
    rw [copy_skip st pre data hpre]
    rcases hcases with h | h | h
    · rw [h] at hs; simp at hs
    · rw [h] at hs
      simp only [Option.some.injEq] at hs
      subst hs
      have := copy_join .running res [] trivial (Or.inl ⟨rfl, rfl⟩) data hcd
      simpa using this
    · rw [h]; trivial
  · intro n w st tr hs hP
    obtain ⟨pre, data, res, he, hpre, hhead, hcd, _⟩ := cwalk_body_copy W lib only mt n w
    rw [he, List.append_assoc]
    refine ⟨?_, starts_with_read_append st pre _ hhead⟩
    rw [copy_skip st pre _ hpre]
    exact copy_join st res tr hP.1 hP.2 data hcd

/-! ## Lemmas on verify mode -/

theorem verify_body_turn {σ : Type} (W : World σ) (lib : Libc) (only : OnlyState) (mt : mtree)
    (n : Nat) (w : σ) : VerifyTurn lib only mt (verify_body W lib only mt n w) := by
  unfold verify_body
  simp only
  split
  · rename_i h
    exact VerifyTurn.eof _ _ _ _ _ h
  · rename_i hEOF
    split
    · rename_i h
      exact VerifyTurn.read_error _ _ _ _ _ hEOF h
    · rename_i hOK
      split
      · rename_i hex
        exact VerifyTurn.filtered _ _ _ _ _ hEOF hOK (by simp [accepted, hex])
      · rename_i hex
        split
        · rename_i hfo
          simp only [Bool.not_eq_true'] at hfo
          exact VerifyTurn.filtered _ _ _ _ _ hEOF hOK (by simp [accepted, hfo])
        · rename_i hfo
          simp only [Bool.not_eq_true', Bool.not_eq_false] at hfo
          exact VerifyTurn.descended _ _ _ _ _ hEOF hOK (by simp [accepted, hfo, hex])

theorem spec_reads_append (a b : List Event) :
    spec_reads (a ++ b) = spec_reads a + spec_reads b := by
  induction a with
  | nil => simp [spec_reads]
  | cons ev a ih =>
    cases ev <;> simp [spec_reads, ih]
    omega

theorem disk_reads_append (a b : List Event) :
    disk_reads (a ++ b) = disk_reads a + disk_reads b := by
  induction a with
  | nil => simp [disk_reads]
  | cons ev a ih =>
    cases ev <;> simp [disk_reads, ih]
    omega

/-- In every run of verify mode no warning is issued, and a run that returns has returned 0
right after a read of the disk walker gave end-of-stream, whatever the spec reader gave. -/
theorem verify_silent {σ : Type} (W : World σ) (lib : Libc) (only : OnlyState) (mt : mtree)
    (fuel : Nat) (w : σ) :
    (∀ ev ∈ (mtree_verify W lib only mt fuel w).trace, is_warning ev = false) ∧
    (∀ v, (mtree_verify W lib only mt fuel w).status = .returned v →
      v = 0 ∧ ∃ pre rs es e, (mtree_verify W lib only mt fuel w).trace =
        pre ++ [.spec_header rs es, .disk_header ARCHIVE_EOF e]) := by
  unfold mtree_verify
  refine for_loop_induct (verify_body W lib only mt)
    (fun st tr => (∀ ev ∈ tr, is_warning ev = false) ∧
      (∀ v, st = .returned v →
        v = 0 ∧ ∃ pre rs es e, tr = pre ++ [.spec_header rs es, .disk_header ARCHIVE_EOF e]))
    ?_ ?_ ?_ fuel w
  · exact ⟨by simp, by intro v hv; simp at hv⟩
  · intro n w st hs
    have t := verify_body_turn W lib only mt n w
    generalize verify_body W lib only mt n w = s at t hs
    cases t with
    | eof rs r es e w2 h =>
      simp only [Option.some.injEq] at hs
      subst hs
      subst h
      refine ⟨by simp [is_warning], ?_⟩
      intro v hv
      simp only [Status.returned.injEq] at hv
      exact ⟨hv.symm, [], rs, es, e, rfl⟩
    | read_error rs r es e w2 h1 h2 =>
      simp only [Option.some.injEq] at hs
      subst hs
      exact ⟨by simp [is_warning], by intro v hv; simp at hv⟩
    | filtered rs r es e w2 h1 h2 h3 => simp at hs
    | descended rs r es e w2 h1 h2 h3 => simp at hs
  · intro n w st tr hs hP
    obtain ⟨p1, p2⟩ := hP
    have t := verify_body_turn W lib only mt n w
    generalize verify_body W lib only mt n w = s at t hs
    cases t with
    | eof rs r es e w2 h => simp at hs
    | read_error rs r es e w2 h1 h2 => simp at hs
    | filtered rs r es e w2 h1 h2 h3 =>
      refine ⟨?_, ?_⟩
      · intro ev hev
        simp only [List.cons_append, List.nil_append, List.mem_cons] at hev
        rcases hev with rfl | rfl | hev
        · rfl
        · rfl
        · exact p1 ev hev
      · intro v hv
        obtain ⟨hv0, pre, rs2, es2, e2, hpre⟩ := p2 v hv
        exact ⟨hv0, [.spec_header rs es, .disk_header r e] ++ pre, rs2, es2, e2, by
          rw [hpre]; simp⟩
    | descended rs r es e w2 h1 h2 h3 =>
      refine ⟨?_, ?_⟩
      · intro ev hev
        simp only [List.cons_append, List.nil_append, List.mem_cons] at hev
        rcases hev with rfl | rfl | rfl | hev
        · rfl
        · rfl
        · rfl
        · exact p1 ev hev
      · intro v hv
        obtain ⟨hv0, pre, rs2, es2, e2, hpre⟩ := p2 v hv
        exact ⟨hv0, [.spec_header rs es, .disk_header r e, .descend e] ++ pre, rs2, es2, e2, by
          rw [hpre]; simp⟩

/-! ## Lemmas on the sizing of the buffer -/

theorem buf_size_loop_mono (bits target : Nat) (n m : Nat) : ∀ (cur v : Nat),
    buf_size_loop bits target n cur = some v → buf_size_loop bits target (n + m) cur = some v := by
  induction n with
  | zero => intro cur v h; simp [buf_size_loop] at h
  | succ n ih =>
    intro cur v h
    rw [Nat.add_right_comm]
    simp only [buf_size_loop] at h ⊢
    split
    · rename_i hlt
      rw [if_pos hlt] at h
      exact ih _ _ h
    · rename_i hlt
      rw [if_neg hlt] at h
      exact h

theorem baseline_pow (k : Nat) : DEFAULT_BYTES_PER_BLOCK * 2 ^ k = 2 ^ (16 + k) := by
  rw [pow_add]
  rfl

theorem buf_size_loop_doubles (bits target : Nat) (hbits : 32 ≤ bits)
    (ht : target ≤ 2 ^ 31) : ∀ (d i : Nat), i + d = 15 →
    (∀ j, j < i → DEFAULT_BYTES_PER_BLOCK * 2 ^ j < target) →
    ∃ k, buf_size_loop bits target (d + 1) (DEFAULT_BYTES_PER_BLOCK * 2 ^ i) =
        some (DEFAULT_BYTES_PER_BLOCK * 2 ^ k) ∧
      target ≤ DEFAULT_BYTES_PER_BLOCK * 2 ^ k ∧
      ∀ j, j < k → DEFAULT_BYTES_PER_BLOCK * 2 ^ j < target := by
  intro d
  induction d with
  | zero =>
    intro i hi hlow
    have hi15 : i = 15 := by omega
    subst hi15
    have hcur : DEFAULT_BYTES_PER_BLOCK * 2 ^ 15 = 2 ^ 31 := by norm_num
    refine ⟨15, ?_, by omega, hlow⟩
    simp only [buf_size_loop]
    rw [if_neg (by omega)]
  | succ d ih =>
    intro i hi hlow
    simp only [buf_size_loop]
    by_cases hlt : DEFAULT_BYTES_PER_BLOCK * 2 ^ i < target
    · rw [if_pos hlt]
      have hnext : (DEFAULT_BYTES_PER_BLOCK * 2 ^ i * 2) % 2 ^ bits =
          DEFAULT_BYTES_PER_BLOCK * 2 ^ (i + 1) := by
        have e : DEFAULT_BYTES_PER_BLOCK * 2 ^ i * 2 = DEFAULT_BYTES_PER_BLOCK * 2 ^ (i + 1) := by
          rw [pow_succ, Nat.mul_assoc]
        rw [e, baseline_pow]
        apply Nat.mod_eq_of_lt
        exact Nat.pow_lt_pow_right (by norm_num) (by omega)
      rw [hnext]
      apply ih (i + 1) (by omega)
      intro j hj
      by_cases hji : j = i
      · rw [hji]; exact hlt
      · exact hlow j (by omega)
    · rw [if_neg hlt]
      exact ⟨i, rfl, by omega, hlow⟩

theorem size_cast_of_nonneg (bits : Nat) (hbits : 32 ≤ bits) (b : Int) (h0 : 0 ≤ b)
    (h1 : b ≤ INT_MAX) : size_cast bits b = b.toNat := by
  unfold size_cast
  have hlt : b < (2 : Int) ^ bits := by
    have h31 : INT_MAX < (2 : Int) ^ 32 := by norm_num
    have hpow : (2 : Int) ^ 32 ≤ (2 : Int) ^ bits :=
      pow_le_pow_right₀ (by norm_num) hbits
    omega
  rw [Int.emod_eq_of_lt h0 hlt]

/-! ## Lemmas on the read discipline -/

theorem read_skip_cons (b : Bool) (st : Status) (ev : Event) (tr : List Event)
    (h : is_next_header ev = false) :
    read_discipline b st (ev :: tr) ↔ read_discipline b st tr := by
  cases ev <;> simp_all [read_discipline, is_next_header]

theorem read_skip (b : Bool) (st : Status) (pre tr : List Event)
    (h : ∀ ev ∈ pre, is_next_header ev = false) :
    read_discipline b st (pre ++ tr) ↔ read_discipline b st tr := by
  induction pre with
  | nil => simp
  | cons ev pre ih =>
    rw [List.cons_append, read_skip_cons b st ev _ (h ev (by simp))]
    exact ih (fun x hx => h x (by simp [hx]))

theorem read_skip_descend (b : Bool) (st : Status) (e : archive_entry) (tr : List Event) :
    read_discipline b st (.descend e :: tr) = read_discipline b st tr := by
  simp only [read_discipline]

theorem read_skip_write_header (b : Bool) (st : Status) (e : archive_entry) (r : Int)
    (tr : List Event) :
    read_discipline b st (.write_header e r :: tr) = read_discipline b st tr := by
  simp only [read_discipline]

theorem data_not_next_header (data : List Event) (h : ∀ ev ∈ data, is_data_event ev = true) :
    ∀ ev ∈ data, is_next_header ev = false := by
  intro ev hev
  have := h ev hev
  cases ev <;> simp_all [is_data_event, is_next_header]

theorem read_discipline_disk_ok (b : Bool) (st : Status) (r : Int) (e : archive_entry)
    (tr : List Event) (h : r = ARCHIVE_EOF ∨ ¬ r < ARCHIVE_OK) :
    read_discipline b st (.disk_header r e :: tr) ↔ read_discipline b st tr := by
  simp only [read_discipline]
  constructor
  · exact fun hh => hh.2
  · intro hh
    refine ⟨?_, hh⟩
    intro h1 h2
    rcases h with h | h
    · exact absurd h h1
    · exact absurd h2 h

theorem read_discipline_spec_ok (b : Bool) (st : Status) (r : Int) (e : archive_entry)
    (tr : List Event) (h : b = false ∨ r = ARCHIVE_EOF ∨ ¬ r < ARCHIVE_OK) :
    read_discipline b st (.spec_header r e :: tr) ↔ read_discipline b st tr := by
  simp only [read_discipline]
  constructor
  · exact fun hh => hh.2
  · intro hh
    refine ⟨?_, hh⟩
    intro h0 h1 h2
    rcases h with h | h | h
    · rw [h] at h0; simp at h0
    · exact absurd h h1
    · exact absurd h2 h

theorem warn_not_next_header (c : Prop) [Decidable c] :
    ∀ ev ∈ (if c then [Event.warnc .header_write] else []), is_next_header ev = false := by
  intro ev hev
  split at hev
  · simp only [List.mem_singleton] at hev
    subst hev
    rfl
  · simp at hev

/-- A read error of the disk walker is fatal in generate mode. -/
theorem cwalk_read_discipline {σ : Type} (W : World σ) (lib : Libc) (only : OnlyState)
    (mt : mtree) (fuel : Nat) (w : σ) :
    read_discipline true (mtree_cwalk W lib only mt fuel w).status
      (mtree_cwalk W lib only mt fuel w).trace := by
  unfold mtree_cwalk
  refine for_loop_induct (cwalk_body W lib only mt) (fun st tr => read_discipline true st tr)
    ?_ ?_ ?_ fuel w
  · trivial
  · intro n w st hs
    have t := cwalk_body_turn W lib only mt n w
    generalize cwalk_body W lib only mt n w = s at t hs
    cases t with
    | eof r e w2 h =>
      simp only
      rw [read_discipline_disk_ok _ _ _ _ _ (Or.inl h)]
      trivial
    | read_error r e w2 h1 h2 =>
      simp only [Option.some.injEq] at hs
      subst hs
      simp [read_discipline]
    | filtered r e w2 h1 h2 h3 => simp at hs
    | fatal r r2 e w2 h1 h2 h3 h4 =>
      simp only
      rw [read_discipline_disk_ok _ _ _ _ _ (Or.inr h2)]
      simp [read_discipline]
    | written r r2 e data w2 stop h1 h2 h3 h4 h5 h6 =>
      simp only [List.cons_append, List.nil_append]
      rw [read_discipline_disk_ok _ _ _ _ _ (Or.inr h2),
        read_skip_descend, read_skip_write_header]
      have := (read_skip true st
        ((if r2 < ARCHIVE_OK then [Event.warnc .header_write] else []) ++ data) []
        (by
          intro ev hev
          rw [List.mem_append] at hev
          rcases hev with hev | hev
          · exact warn_not_next_header _ ev hev
          · exact data_not_next_header data h5 ev hev)).2 trivial
      simpa using this
  · intro n w st tr hs hP
    have t := cwalk_body_turn W lib only mt n w
    generalize cwalk_body W lib only mt n w = s at t hs
    cases t with
    | eof r e w2 h => simp at hs
    | read_error r e w2 h1 h2 => simp at hs
    | filtered r e w2 h1 h2 h3 =>
      simp only [List.cons_append, List.nil_append]
      rw [read_discipline_disk_ok _ _ _ _ _ (Or.inr h2)]
      exact hP
    | fatal r r2 e w2 h1 h2 h3 h4 => simp at hs
    | written r r2 e data w2 stop h1 h2 h3 h4 h5 h6 =>
      simp only [List.cons_append, List.nil_append, List.append_assoc]
      rw [read_discipline_disk_ok _ _ _ _ _ (Or.inr h2),
        read_skip_descend, read_skip_write_header,
        read_skip _ _ _ _ (warn_not_next_header _), read_skip _ _ _ _
          (data_not_next_header data h5)]
      exact hP

/-- A read error of the spec reader is fatal in convert mode. -/
theorem convert_read_discipline {σ : Type} (W : World σ) (mt : mtree) (fuel : Nat) (w : σ) :
    read_discipline true (mtree_convert W mt fuel w).status
      (mtree_convert W mt fuel w).trace := by
  unfold mtree_convert
  refine for_loop_induct (convert_body W mt) (fun st tr => read_discipline true st tr)
    ?_ ?_ ?_ fuel w
  · trivial
  · intro n w st hs
    have t := convert_body_turn W mt n w
    generalize convert_body W mt n w = s at t hs
    cases t with
    | eof r e w2 h =>
      simp only
      rw [read_discipline_spec_ok _ _ _ _ _ (Or.inr (Or.inl h))]
      trivial
    | read_error r e w2 h1 h2 =>
      simp only [Option.some.injEq] at hs
      subst hs
      simp [read_discipline]
    | fatal r r2 e w2 h1 h2 h4 =>
      simp only
      rw [read_discipline_spec_ok _ _ _ _ _ (Or.inr (Or.inr h2))]
      simp [read_discipline]
    | written r r2 e w2 h1 h2 h4 => simp at hs
  · intro n w st tr hs hP
    have t := convert_body_turn W mt n w
    generalize convert_body W mt n w = s at t hs
    cases t with
    | eof r e w2 h => simp at hs
    | read_error r e w2 h1 h2 => simp at hs
    | fatal r r2 e w2 h1 h2 h4 => simp at hs
    | written r r2 e w2 h1 h2 h4 =>
      simp only [List.cons_append, List.nil_append, List.append_assoc]
      rw [read_discipline_spec_ok _ _ _ _ _ (Or.inr (Or.inr h2)),
        read_skip_write_header, read_skip _ _ _ _ (warn_not_next_header _)]
      exact hP

/-- A read error of the disk walker is fatal in verify mode; the reads of the spec reader
are left out of the requirement. -/
theorem verify_read_discipline {σ : Type} (W : World σ) (lib : Libc) (only : OnlyState)
    (mt : mtree) (fuel : Nat) (w : σ) :
    read_discipline false (mtree_verify W lib only mt fuel w).status
      (mtree_verify W lib only mt fuel w).trace := by
  unfold mtree_verify
  refine for_loop_induct (verify_body W lib only mt) (fun st tr => read_discipline false st tr)
    ?_ ?_ ?_ fuel w
  · trivial
  · intro n w st hs
    have t := verify_body_turn W lib only mt n w
    generalize verify_body W lib only mt n w = s at t hs
    cases t with
    | eof rs r es e w2 h =>
      simp only
      rw [read_discipline_spec_ok _ _ _ _ _ (Or.inl rfl),
        read_discipline_disk_ok _ _ _ _ _ (Or.inl h)]
      trivial
    | read_error rs r es e w2 h1 h2 =>
      simp only [Option.some.injEq] at hs
      subst hs
      simp only
      rw [read_discipline_spec_ok _ _ _ _ _ (Or.inl rfl)]
      simp [read_discipline]
    | filtered rs r es e w2 h1 h2 h3 => simp at hs
    | descended rs r es e w2 h1 h2 h3 => simp at hs
  · intro n w st tr hs hP
    have t := verify_body_turn W lib only mt n w
    generalize verify_body W lib only mt n w = s at t hs
    cases t with
    | eof rs r es e w2 h => simp at hs
    | read_error rs r es e w2 h1 h2 => simp at hs
    | filtered rs r es e w2 h1 h2 h3 =>
      simp only [List.cons_append, List.nil_append]
      rw [read_discipline_spec_ok _ _ _ _ _ (Or.inl rfl),
        read_discipline_disk_ok _ _ _ _ _ (Or.inr h2)]
      exact hP
    | descended rs r es e w2 h1 h2 h3 =>
      simp only [List.cons_append, List.nil_append]
      rw [read_discipline_spec_ok _ _ _ _ _ (Or.inl rfl),
        read_discipline_disk_ok _ _ _ _ _ (Or.inr h2), read_skip_descend]
      exact hP

/-! ## Lemmas on the results of the loops and of `main` -/

theorem cwalk_results {σ : Type} (W : World σ) (lib : Libc) (only : OnlyState) (mt : mtree)
    (fuel : Nat) (w : σ) :
    (∀ v, (mtree_cwalk W lib only mt fuel w).status = .returned v → v = 0) ∧
    (∀ c, (mtree_cwalk W lib only mt fuel w).status = .exited c → c = 1) := by
  unfold mtree_cwalk
  refine for_loop_induct (cwalk_body W lib only mt)
    (fun st _ => (∀ v, st = .returned v → v = 0) ∧ (∀ c, st = .exited c → c = 1))
    ?_ ?_ ?_ fuel w
  · exact ⟨by intro v hv; simp at hv, by intro c hc; simp at hc⟩
  · intro n w st hs
    have t := cwalk_body_turn W lib only mt n w
    generalize cwalk_body W lib only mt n w = s at t hs
    cases t with
    | eof r e w2 h =>
      simp only [Option.some.injEq] at hs
      subst hs
      exact ⟨by intro v hv; simpa using hv.symm, by intro c hc; simp at hc⟩
    | read_error r e w2 h1 h2 =>
      simp only [Option.some.injEq] at hs
      subst hs
      exact ⟨by intro v hv; simp at hv, by intro c hc; simpa using hc.symm⟩
    | filtered r e w2 h1 h2 h3 => simp at hs
    | fatal r r2 e w2 h1 h2 h3 h4 =>
      simp only [Option.some.injEq] at hs
      subst hs
      exact ⟨by intro v hv; simp at hv, by intro c hc; simpa using hc.symm⟩
    | written r r2 e data w2 stop h1 h2 h3 h4 h5 h6 =>
      simp only at hs
      rcases h6 with h6 | h6
      · rw [h6] at hs; simp at hs
      · rw [h6] at hs
        simp only [Option.some.injEq] at hs
        subst hs
        exact ⟨by intro v hv; simp at hv, by intro c hc; simp at hc⟩
  · intro n w st tr _ hP
    exact hP

theorem convert_results {σ : Type} (W : World σ) (mt : mtree) (fuel : Nat) (w : σ) :
    (∀ v, (mtree_convert W mt fuel w).status = .returned v → v = 0) ∧
    (∀ c, (mtree_convert W mt fuel w).status = .exited c → c = 1) := by
  unfold mtree_convert
  refine for_loop_induct (convert_body W mt)
    (fun st _ => (∀ v, st = .returned v → v = 0) ∧ (∀ c, st = .exited c → c = 1))
    ?_ ?_ ?_ fuel w
  · exact ⟨by intro v hv; simp at hv, by intro c hc; simp at hc⟩
  · intro n w st hs
    have t := convert_body_turn W mt n w
    generalize convert_body W mt n w = s at t hs
    cases t with
    | eof r e w2 h =>
      simp only [Option.some.injEq] at hs
      subst hs
      exact ⟨by intro v hv; simpa using hv.symm, by intro c hc; simp at hc⟩
    | read_error r e w2 h1 h2 =>
      simp only [Option.some.injEq] at hs
      subst hs
      exact ⟨by intro v hv; simp at hv, by intro c hc; simpa using hc.symm⟩
    | fatal r r2 e w2 h1 h2 h4 =>
      simp only [Option.some.injEq] at hs
      subst hs
      exact ⟨by intro v hv; simp at hv, by intro c hc; simpa using hc.symm⟩
    | written r r2 e w2 h1 h2 h4 => simp at hs
  · intro n w st tr _ hP
    exact hP

theorem verify_results {σ : Type} (W : World σ) (lib : Libc) (only : OnlyState) (mt : mtree)
    (fuel : Nat) (w : σ) :
    (∀ v, (mtree_verify W lib only mt fuel w).status = .returned v → v = 0) ∧
    (∀ c, (mtree_verify W lib only mt fuel w).status = .exited c → c = 1) := by
  unfold mtree_verify
  refine for_loop_induct (verify_body W lib only mt)
    (fun st _ => (∀ v, st = .returned v → v = 0) ∧ (∀ c, st = .exited c → c = 1))
    ?_ ?_ ?_ fuel w
  · exact ⟨by intro v hv; simp at hv, by intro c hc; simp at hc⟩
  · intro n w st hs
    have t := verify_body_turn W lib only mt n w
    generalize verify_body W lib only mt n w = s at t hs
    cases t with
    | eof rs r es e w2 h =>
      simp only [Option.some.injEq] at hs
      subst hs
      exact ⟨by intro v hv; simpa using hv.symm, by intro c hc; simp at hc⟩
    | read_error rs r es e w2 h1 h2 =>
      simp only [Option.some.injEq] at hs
      subst hs
      exact ⟨by intro v hv; simp at hv, by intro c hc; simpa using hc.symm⟩
    | filtered rs r es e w2 h1 h2 h3 => simp at hs
    | descended rs r es e w2 h1 h2 h3 => simp at hs
  · intro n w st tr _ hP
    exact hP

/-- The status and the trace of `main` after a mode function whose result is assigned to
`status`. -/
theorem main_exit_of_run {σ : Type} (mt : mtree) (r : Run σ) :
    (match r.status with
      | .returned v => main_exit mt v r
      | _ => r).trace = r.trace ∧
    (∀ v, r.status = .returned v →
      (match r.status with
        | .returned v => main_exit mt v r
        | _ => r).status = .exited (if mt.Uflag ≠ 0 ∧ v = MISMATCHEXIT then 0 else v)) ∧
    (∀ c, r.status = .exited c →
      (match r.status with
        | .returned v => main_exit mt v r
        | _ => r).status = .exited c) ∧
    (r.status = .running →
      (match r.status with
        | .returned v => main_exit mt v r
        | _ => r).status = .running) := by
  cases h : r.status with
  | returned v => simp [main_exit]
  | exited c => simp [h]
  | running => simp [h]

/-- The status and the trace of `main` after `mtree_verify`, whose result is not used. -/
theorem main_exit_of_verify {σ : Type} (mt : mtree) (r : Run σ) :
    (match r.status with
      | .returned _ => main_exit mt ARCHIVE_OK r
      | _ => r).trace = r.trace ∧
    (∀ v, r.status = .returned v →
      (match r.status with
        | .returned _ => main_exit mt ARCHIVE_OK r
        | _ => r).status = .exited 0) ∧
    (∀ c, r.status = .exited c →
      (match r.status with
        | .returned _ => main_exit mt ARCHIVE_OK r
        | _ => r).status = .exited c) ∧
    (r.status = .running →
      (match r.status with
        | .returned _ => main_exit mt ARCHIVE_OK r
        | _ => r).status = .running) := by
  have hm : ¬ (ARCHIVE_OK = MISMATCHEXIT) := by decide
  cases h : r.status with
  | returned v => simp [main_exit, hm]
  | exited c => simp [h]
  | running => simp [h]

/-! ## Claims on the only-set -/

/-- C1 (the code departs from the claim).  The only-list with the single line `a/X:` loads,
`a` is an ancestor of that line and both strings fall into bucket 100, yet `mtree_find_only`
answers false for `a`: while `fill` has the line cut down to `a`, the line's own cell reads as
`a`, the lookup succeeds and no copy of `a` is inserted. -/
theorem fill_alias_misses_ancestor :
    hash_str (bytes "a") % TABLE_SIZE = 100 ∧
    hash_str (bytes "a/X:") % TABLE_SIZE = 100 ∧
    Ancestor (bytes "a") (bytes "a/X:") ∧
    find_after_load [bytes "a/X:"] (bytes "a/X:") = some true ∧
    find_after_load [bytes "a/X:"] (bytes "a") = some false := by
  refine ⟨by decide, by decide, Ancestor.parent (by decide), ?_, ?_⟩
  · set_option maxRecDepth 100000 in decide
  · set_option maxRecDepth 100000 in decide

/-- C2.  A load of NUL-free lines `L` never uses up the recursion budget of `fill`, and
after a load that ends normally `mtree_find_only` answers true for `Q` only if `Q` is a line
of `L` or an ancestor of one. -/
theorem find_only_sound (L : List (List Nat)) (hL : ∀ l ∈ L, 0 ∉ l) (Q : List Nat) :
    mtree_read_load_only_file L ≠ .nofuel ∧
    (find_after_load L Q = some true → InClosure L Q) := by
  refine ⟨load_loop_fuel L 0 _ [] good_init hL, ?_⟩
  intro h
  unfold find_after_load at h
  cases hload : mtree_read_load_only_file L with
  | ok st =>
    rw [hload] at h
    simp only [Option.some.injEq] at h
    obtain ⟨g, hloaded⟩ := load_loop_ok L 0 _ st [] good_init hL hload
    simp only [List.nil_append] at g
    simp only [mtree_find_only, hloaded, Bool.not_true, Bool.false_eq_true, if_false] at h
    exact hash_find_sound g.range g.sound h
  | duplicate k l => rw [hload] at h; simp at h
  | nofuel => rw [hload] at h; simp at h

/-- C2, at the list `dir/sub/file`: the query `dir/sub` is answered true and is in the
closure, and `dir/other` is answered false; at the list `a`, the query `a/X:`, which falls
into the same bucket as `a`, is answered false. -/
theorem find_only_sound_witness :
    (∀ l ∈ [bytes "dir/sub/file"], 0 ∉ l) ∧
    find_after_load [bytes "dir/sub/file"] (bytes "dir/sub") = some true ∧
    find_after_load [bytes "dir/sub/file"] (bytes "dir/other") = some false ∧
    find_after_load [bytes "a"] (bytes "a/X:") = some false ∧
    InClosure [bytes "dir/sub/file"] (bytes "dir/sub") :=
  ⟨by decide, by set_option maxRecDepth 100000 in decide,
    by set_option maxRecDepth 100000 in decide,
    by set_option maxRecDepth 100000 in decide,
    (find_only_sound [bytes "dir/sub/file"] (by decide) (bytes "dir/sub")).2
      (by set_option maxRecDepth 100000 in decide)⟩

/-- C3 as stated fails.  In the list `a`, `a`, `b`, `b` the path `b` occurs at positions
2 and 3, but the load stops at line 1 with the error naming `a`, and no error names `b`.  In
the list `d/f`, `d`, `z`, `z` the only repeated path is `z`, and the load stops at line 1 with
the error naming `d`. -/
theorem load_duplicate_names_other_line :
    mtree_read_load_only_file [bytes "a", bytes "a", bytes "b", bytes "b"] =
      .duplicate 1 (bytes "a") ∧
    (¬ ∃ k, mtree_read_load_only_file [bytes "a", bytes "a", bytes "b", bytes "b"] =
      .duplicate k (bytes "b")) ∧
    mtree_read_load_only_file [bytes "d/f", bytes "d", bytes "z", bytes "z"] =
      .duplicate 1 (bytes "d") ∧
    ¬ ∃ k, mtree_read_load_only_file [bytes "d/f", bytes "d", bytes "z", bytes "z"] =
      .duplicate k (bytes "z") := by
  have h1 : mtree_read_load_only_file [bytes "a", bytes "a", bytes "b", bytes "b"] =
      .duplicate 1 (bytes "a") := by
    set_option maxRecDepth 100000 in decide
  have h2 : mtree_read_load_only_file [bytes "d/f", bytes "d", bytes "z", bytes "z"] =
      .duplicate 1 (bytes "d") := by
    set_option maxRecDepth 100000 in decide
  refine ⟨h1, ?_, h2, ?_⟩
  · rintro ⟨k, hk⟩
    rw [h1] at hk
    simp only [LoadResult.duplicate.injEq] at hk
    exact absurd hk.2 (by decide)
  · rintro ⟨k, hk⟩
    rw [h2] at hk
    simp only [LoadResult.duplicate.injEq] at hk
    exact absurd hk.2 (by decide)

/-- C3 (amended).  When the same path stands at positions `i < j` of a list of NUL-free
lines, the load ends with a duplicate error at some line `k ≤ j`; the error names line `k`,
and line `k` is a line before it or an ancestor of one.  The result carries no table. -/
theorem load_duplicate (L : List (List Nat)) (hL : ∀ l ∈ L, 0 ∉ l) (i j : Nat)
    (hij : i < j) (hj : j < L.length) (h : L.getD i [] = L.getD j []) :
    ∃ k, k ≤ j ∧ mtree_read_load_only_file L = .duplicate k (L.getD k []) ∧
      InClosure (L.take k) (L.getD k []) ∧
      ∀ Q, find_after_load L Q = none := by
  obtain ⟨k, hk, hres, hcl⟩ :=
    load_loop_dup L 0 _ [] j good_init hL hj (Or.inr ⟨i, hij, h⟩)
  refine ⟨k, hk, ?_, by simpa using hcl, ?_⟩
  · simpa [mtree_read_load_only_file] using hres
  · intro Q
    have : mtree_read_load_only_file L = .duplicate k (L.getD k []) := by
      simpa [mtree_read_load_only_file] using hres
    simp [find_after_load, this]

/-- C3 (amended), at the list `x`, `y`, `x`: the error is raised at line 2 and names `x`. -/
theorem load_duplicate_witness :
    (∀ l ∈ [bytes "x", bytes "y", bytes "x"], 0 ∉ l) ∧ (0 : Nat) < 2 ∧
    mtree_read_load_only_file [bytes "x", bytes "y", bytes "x"] = .duplicate 2 (bytes "x") ∧
    ∃ k, k ≤ 2 ∧ mtree_read_load_only_file [bytes "x", bytes "y", bytes "x"] =
        .duplicate k ([bytes "x", bytes "y", bytes "x"].getD k []) ∧
      InClosure ([bytes "x", bytes "y", bytes "x"].take k)
        ([bytes "x", bytes "y", bytes "x"].getD k []) ∧
      ∀ Q, find_after_load [bytes "x", bytes "y", bytes "x"] Q = none :=
  ⟨by decide, by decide, by set_option maxRecDepth 100000 in decide,
    load_duplicate [bytes "x", bytes "y", bytes "x"] (by decide) 0 2 (by decide) (by decide)
      (by decide)⟩

/-- C4.  While no only-file is loaded, `mtree_find_only` answers true for every path,
whatever the table holds. -/
theorem find_only_not_loaded (st : OnlyState) (path : List Nat) (h : st.loaded = false) :
    mtree_find_only st path = true := by
  simp [mtree_find_only, h]

/-- C4, at the initial state and the path `dir/other`. -/
theorem find_only_not_loaded_witness :
    OnlyState.init.loaded = false ∧ mtree_find_only OnlyState.init (bytes "dir/other") = true :=
  ⟨rfl, find_only_not_loaded OnlyState.init (bytes "dir/other") rfl⟩

/-! ## Claims on the exclude list -/

/-- C5 (the code departs from the claim).  With the list `*.tmp`, `a/*.o` and the path
`a/c.o`, for every matcher that finds neither pattern matching `c.o`, `check_excludes`
returns 0: the first pattern has no `/` and moves `s` to `c.o`, and the second pattern, which
has a `/`, is then tried against `c.o` and not against the full path. -/
theorem check_excludes_mixed_list (lib : Libc)
    (h1 : lib.fnmatch (bytes "*.tmp") (bytes "c.o") lib.FNM_PATHNAME ≠ 0)
    (h2 : lib.fnmatch (bytes "a/*.o") (bytes "c.o") lib.FNM_PATHNAME ≠ 0) :
    check_excludes lib ⟨bytes "a/c.o", AE_IFREG, bytes "a/c.o"⟩
      { excludes := [bytes "*.tmp", bytes "a/*.o"] } = 0 := by
  have e1 : final_component (bytes "a/c.o") = bytes "c.o" := by decide
  unfold check_excludes
  simp only
  rw [check_excludes_loop_cons_no_slash lib _ _ _ (by decide), e1, if_neg h1,
    check_excludes_loop_cons_slash lib _ _ _ (by decide), if_neg h2]
  rfl

/-- C5, with the matcher `glob`: the second pattern matches the full path `a/c.o`, its own
target, and `check_excludes` still returns 0. -/
theorem check_excludes_mixed_list_witness :
    SLASH ∈ bytes "a/*.o" ∧
    glob_libc.fnmatch (bytes "a/*.o") (bytes "a/c.o") glob_libc.FNM_PATHNAME = 0 ∧
    glob_libc.fnmatch (bytes "*.tmp") (bytes "c.o") glob_libc.FNM_PATHNAME ≠ 0 ∧
    glob_libc.fnmatch (bytes "a/*.o") (bytes "c.o") glob_libc.FNM_PATHNAME ≠ 0 ∧
    check_excludes glob_libc ⟨bytes "a/c.o", AE_IFREG, bytes "a/c.o"⟩
      { excludes := [bytes "*.tmp", bytes "a/*.o"] } = 0 :=
  ⟨by decide, by decide, by decide, by decide,
    check_excludes_mixed_list glob_libc (by decide) (by decide)⟩

/-- C6.  When no pattern of the list contains `/`, `check_excludes` returns 1 exactly when
some pattern matches the final component of the path, and 0 otherwise; with an empty list it
returns 0. -/
theorem check_excludes_final_component (lib : Libc) (entry : archive_entry) (mt : mtree)
    (h : ∀ p ∈ mt.excludes, SLASH ∉ p) :
    (check_excludes lib entry mt = 1 ↔
      ∃ p ∈ mt.excludes,
        lib.fnmatch p (final_component entry.pathname) lib.FNM_PATHNAME = 0) ∧
    (check_excludes lib entry mt = 0 ↔
      ¬ ∃ p ∈ mt.excludes,
        lib.fnmatch p (final_component entry.pathname) lib.FNM_PATHNAME = 0) ∧
    (mt.excludes = [] → check_excludes lib entry mt = 0) := by
  have hiff := check_excludes_loop_no_slash lib mt.excludes h entry.pathname
  have hval := check_excludes_loop_values lib mt.excludes entry.pathname
  unfold check_excludes
  refine ⟨hiff, ?_, ?_⟩
  · rw [← hiff]
    rcases hval with hv | hv
    · simp [hv]
    · simp [hv]
  · intro he
    rw [he]
    rfl

/-- C6, with the matcher `glob`: the list `*.o` and the path `a/b/c.o` give 1, and the final
component is `c.o`. -/
theorem check_excludes_final_component_witness :
    (∀ p ∈ ({ excludes := [bytes "*.o"] } : mtree).excludes, SLASH ∉ p) ∧
    final_component (bytes "a/b/c.o") = bytes "c.o" ∧
    check_excludes glob_libc ⟨bytes "a/b/c.o", AE_IFREG, bytes "a/b/c.o"⟩
      { excludes := [bytes "*.o"] } = 1 ∧
    (check_excludes glob_libc ⟨bytes "a/b/c.o", AE_IFREG, bytes "a/b/c.o"⟩
        { excludes := [bytes "*.o"] } = 1 ↔
      ∃ p ∈ ({ excludes := [bytes "*.o"] } : mtree).excludes,
        glob_libc.fnmatch p (final_component (bytes "a/b/c.o")) glob_libc.FNM_PATHNAME = 0) :=
  ⟨by decide, by decide, by decide,
    (check_excludes_final_component glob_libc ⟨bytes "a/b/c.o", AE_IFREG, bytes "a/b/c.o"⟩
      { excludes := [bytes "*.o"] } (by decide)).1⟩

/-- C7 (the code departs from the claim).  The lists `a/*.o`, `*.tmp` and `*.tmp`, `a/*.o`
are permutations of each other, and for every matcher that finds `a/*.o` matching `a/c.o` and
neither pattern matching `c.o`, `check_excludes` on the path `a/c.o` returns 1 with the first
list and 0 with the second. -/
theorem check_excludes_order_matters (lib : Libc)
    (h0 : lib.fnmatch (bytes "a/*.o") (bytes "a/c.o") lib.FNM_PATHNAME = 0)
    (h1 : lib.fnmatch (bytes "*.tmp") (bytes "c.o") lib.FNM_PATHNAME ≠ 0)
    (h2 : lib.fnmatch (bytes "a/*.o") (bytes "c.o") lib.FNM_PATHNAME ≠ 0) :
    List.Perm [bytes "a/*.o", bytes "*.tmp"] [bytes "*.tmp", bytes "a/*.o"] ∧
    check_excludes lib ⟨bytes "a/c.o", AE_IFREG, bytes "a/c.o"⟩
      { excludes := [bytes "a/*.o", bytes "*.tmp"] } = 1 ∧
    check_excludes lib ⟨bytes "a/c.o", AE_IFREG, bytes "a/c.o"⟩
      { excludes := [bytes "*.tmp", bytes "a/*.o"] } = 0 := by
  have e1 : final_component (bytes "a/c.o") = bytes "c.o" := by decide
  refine ⟨List.Perm.swap _ _ _, ?_, ?_⟩
  · unfold check_excludes
    simp only
    rw [check_excludes_loop_cons_slash lib _ _ _ (by decide), if_pos h0]
  · unfold check_excludes
    simp only
    rw [check_excludes_loop_cons_no_slash lib _ _ _ (by decide), e1, if_neg h1,
      check_excludes_loop_cons_slash lib _ _ _ (by decide), if_neg h2]
    rfl

/-- C7, with the matcher `glob`. -/
theorem check_excludes_order_matters_witness :
    glob_libc.fnmatch (bytes "a/*.o") (bytes "a/c.o") glob_libc.FNM_PATHNAME = 0 ∧
    check_excludes glob_libc ⟨bytes "a/c.o", AE_IFREG, bytes "a/c.o"⟩
      { excludes := [bytes "a/*.o", bytes "*.tmp"] } = 1 ∧
    check_excludes glob_libc ⟨bytes "a/c.o", AE_IFREG, bytes "a/c.o"⟩
      { excludes := [bytes "*.tmp", bytes "a/*.o"] } = 0 :=
  ⟨by decide, (check_excludes_order_matters glob_libc (by decide) (by decide) (by decide)).2⟩

/-! ## Claims on the run modes -/

/-- C10.  In every run of generate mode and of convert mode, each header write is followed
according to its result `r`: for `r ≤ ARCHIVE_FAILED` only the fatal diagnostic follows and
the process has exited with code 1; for `ARCHIVE_FAILED < r < ARCHIVE_OK` the warning follows
at once; for `r ≥ ARCHIVE_OK` no header warning follows; and in the last two cases the loop
goes on to read the next header. -/
theorem header_result_decides_run {σ : Type} (W : World σ) (lib : Libc) (only : OnlyState)
    (mt : mtree) (fuel : Nat) (w : σ) :
    header_discipline (mtree_cwalk W lib only mt fuel w).status
      (mtree_cwalk W lib only mt fuel w).trace ∧
    header_discipline (mtree_convert W mt fuel w).status (mtree_convert W mt fuel w).trace :=
  ⟨(cwalk_discipline W lib only mt fuel w).1, (convert_discipline W mt fuel w).1⟩

/-- C10 on three small runs of convert mode over one record: a fatal result (-30) ends the
run at the write, a warning result (-20) is followed by the warning and the next read, and a
success result is followed by the next read alone. -/
theorem header_result_examples :
    (mtree_convert script_world {} 3 ⟨[], [regular_file "f"], ARCHIVE_FATAL⟩).status =
      .exited 1 ∧
    (mtree_convert script_world {} 3 ⟨[], [regular_file "f"], ARCHIVE_FATAL⟩).trace =
      [.spec_header 0 (regular_file "f"), .write_header (regular_file "f") (-30),
        .errc .header_write] ∧
    (mtree_convert script_world {} 3 ⟨[], [regular_file "f"], ARCHIVE_WARN⟩).trace =
      [.spec_header 0 (regular_file "f"), .write_header (regular_file "f") (-20),
        .warnc .header_write, .spec_header 1 ⟨[], 0, []⟩] ∧
    (mtree_convert script_world {} 3 ⟨[], [regular_file "f"], ARCHIVE_OK⟩).trace =
      [.spec_header 0 (regular_file "f"), .write_header (regular_file "f") 0,
        .spec_header 1 ⟨[], 0, []⟩] := by
  decide

/-- C11.  Every checksum-copy pass follows `copy_discipline`: an open that fails gives the
warning and the result -1; the first data write whose result is negative or below the number
of bytes read is followed by the warning and the close only, with the result -1.  And in
every run of generate mode such a failure is followed by the read of the next header: the
loop goes on with the remaining walker entries. -/
theorem copy_failure_is_per_file {σ : Type} (W : World σ) (lib : Libc) (only : OnlyState)
    (mt : mtree) (path : List Nat) (fuel : Nat) (w : σ) :
    copy_discipline (mtree_write_data W mt path fuel w).1
      (mtree_write_data W mt path fuel w).2.1 ∧
    copy_failures_skip (mtree_cwalk W lib only mt fuel w).status
      (mtree_cwalk W lib only mt fuel w).trace :=
  ⟨write_data_discipline W mt path fuel w, (cwalk_copy_failures W lib only mt fuel w).1⟩

/-- C11, Scenario C: the file `f` has three chunks of 10 bytes and the write of its second
chunk returns 5; the files `g` (one chunk of 4 bytes) and `h` (which cannot be opened)
follow.  The run returns 0, the third chunk of `f` is never written, each failure gives one
warning, and all three headers are written. -/
theorem copy_scenario_C :
    (mtree_cwalk tape_world glob_libc OnlyState.init {} 4
      ⟨[(0, regular_file "f"), (0, regular_file "g"), (0, regular_file "h")], [],
        [(bytes "f", [10, 10, 10]), (bytes "g", [4])], [], [10, 5]⟩).status = .returned 0 ∧
    data_writes (mtree_cwalk tape_world glob_libc OnlyState.init {} 4
      ⟨[(0, regular_file "f"), (0, regular_file "g"), (0, regular_file "h")], [],
        [(bytes "f", [10, 10, 10]), (bytes "g", [4])], [], [10, 5]⟩).trace =
      [(10, 10), (10, 5), (4, 4), (0, 0)] ∧
    (mtree_cwalk tape_world glob_libc OnlyState.init {} 4
      ⟨[(0, regular_file "f"), (0, regular_file "g"), (0, regular_file "h")], [],
        [(bytes "f", [10, 10, 10]), (bytes "g", [4])], [], [10, 5]⟩).trace.filter is_warning =
      [.warnc .data_write, .warnc .cannot_open] ∧
    headers_written (mtree_cwalk tape_world glob_libc OnlyState.init {} 4
      ⟨[(0, regular_file "f"), (0, regular_file "g"), (0, regular_file "h")], [],
        [(bytes "f", [10, 10, 10]), (bytes "g", [4])], [], [10, 5]⟩).trace =
      [regular_file "f", regular_file "g", regular_file "h"] ∧
    (mtree_write_data tape_world {} (bytes "f") 4
      ⟨[], [], [(bytes "f", [10, 10, 10])], [], [10, 5]⟩).1 = some (-1) ∧
    copy_failures_skip (mtree_cwalk tape_world glob_libc OnlyState.init {} 4
      ⟨[(0, regular_file "f"), (0, regular_file "g"), (0, regular_file "h")], [],
        [(bytes "f", [10, 10, 10]), (bytes "g", [4])], [], [10, 5]⟩).status
      (mtree_cwalk tape_world glob_libc OnlyState.init {} 4
      ⟨[(0, regular_file "f"), (0, regular_file "g"), (0, regular_file "h")], [],
        [(bytes "f", [10, 10, 10]), (bytes "g", [4])], [], [10, 5]⟩).trace :=
  ⟨by decide, by decide, by decide, by decide, by decide,
    (copy_failure_is_per_file tape_world glob_libc OnlyState.init {} [] 4
      ⟨[(0, regular_file "f"), (0, regular_file "g"), (0, regular_file "h")], [],
        [(bytes "f", [10, 10, 10]), (bytes "g", [4])], [], [10, 5]⟩).2⟩

/-- C12 (the code departs from the claim).  A read error of the disk walker is fatal in
generate and in verify mode, and a read error of the spec reader is fatal in convert mode.
But in verify mode the spec reader may give `ARCHIVE_FATAL`: with that result at the first
read and the disk entry `x`, the run is not aborted, no diagnostic is issued, the walker
descends into `x`, both streams are read again and the function returns 0.  The result of
the spec read is overwritten by the result of the disk read before any test. -/
theorem spec_read_error_unchecked_in_verify {σ : Type} (W : World σ) (lib : Libc)
    (only : OnlyState) (mt : mtree) (fuel : Nat) (w : σ) :
    read_discipline true (mtree_cwalk W lib only mt fuel w).status
      (mtree_cwalk W lib only mt fuel w).trace ∧
    read_discipline true (mtree_convert W mt fuel w).status
      (mtree_convert W mt fuel w).trace ∧
    read_discipline false (mtree_verify W lib only mt fuel w).status
      (mtree_verify W lib only mt fuel w).trace ∧
    ARCHIVE_FATAL < ARCHIVE_OK ∧ ARCHIVE_FATAL ≠ ARCHIVE_EOF ∧
    (mtree_verify tape_world glob_libc OnlyState.init {} 3
      ⟨[(ARCHIVE_OK, regular_file "x")], [(ARCHIVE_FATAL, regular_file "s")], [], [], []⟩).status
      = .returned 0 ∧
    (mtree_verify tape_world glob_libc OnlyState.init {} 3
      ⟨[(ARCHIVE_OK, regular_file "x")], [(ARCHIVE_FATAL, regular_file "s")], [], [], []⟩).trace
      = [.spec_header ARCHIVE_FATAL (regular_file "s"),
         .disk_header ARCHIVE_OK (regular_file "x"), .descend (regular_file "x"),
         .spec_header ARCHIVE_EOF ⟨[], 0, []⟩, .disk_header ARCHIVE_EOF ⟨[], 0, []⟩] ∧
    ¬ read_discipline true
      (mtree_verify tape_world glob_libc OnlyState.init {} 3
        ⟨[(ARCHIVE_OK, regular_file "x")], [(ARCHIVE_FATAL, regular_file "s")], [], [],
          []⟩).status
      (mtree_verify tape_world glob_libc OnlyState.init {} 3
        ⟨[(ARCHIVE_OK, regular_file "x")], [(ARCHIVE_FATAL, regular_file "s")], [], [],
          []⟩).trace := by
  have htr : (mtree_verify tape_world glob_libc OnlyState.init {} 3
      ⟨[(ARCHIVE_OK, regular_file "x")], [(ARCHIVE_FATAL, regular_file "s")], [], [], []⟩).trace
      = [.spec_header ARCHIVE_FATAL (regular_file "s"),
         .disk_header ARCHIVE_OK (regular_file "x"), .descend (regular_file "x"),
         .spec_header ARCHIVE_EOF ⟨[], 0, []⟩, .disk_header ARCHIVE_EOF ⟨[], 0, []⟩] := by
    decide
  refine ⟨cwalk_read_discipline W lib only mt fuel w, convert_read_discipline W mt fuel w,
    verify_read_discipline W lib only mt fuel w, by decide, by decide, by decide, htr, ?_⟩
  rw [htr]
  intro h
  unfold read_discipline at h
  have h2 := (h.1 rfl (by decide) (by decide)).1
  simp at h2

/-- C14 (the code departs from the claim).  With the disk entry `x` and an empty spec, the
run of verify mode returns 0 and issues no diagnostic, the same result as the run in which
the spec holds `x` too; with an empty disk and the spec record `s` it returns 0 as well.  In
every run of verify mode no warning is issued and the only value returned is 0: no finding
is ever recorded, against the comments of the function ("print the relevant mismatches",
"if missing, warn"). -/
theorem verify_reports_nothing {σ : Type} (W : World σ) (lib : Libc) (only : OnlyState)
    (mt : mtree) (fuel : Nat) (w : σ) :
    (∀ ev ∈ (mtree_verify W lib only mt fuel w).trace, is_warning ev = false) ∧
    (∀ v, (mtree_verify W lib only mt fuel w).status = .returned v → v = 0) ∧
    (mtree_verify script_world glob_libc OnlyState.init {} 3
      ⟨[regular_file "x"], [], 0⟩).status = .returned 0 ∧
    (mtree_verify script_world glob_libc OnlyState.init {} 3
      ⟨[regular_file "x"], [], 0⟩).trace =
      [.spec_header ARCHIVE_EOF ⟨[], 0, []⟩, .disk_header ARCHIVE_OK (regular_file "x"),
        .descend (regular_file "x"), .spec_header ARCHIVE_EOF ⟨[], 0, []⟩,
        .disk_header ARCHIVE_EOF ⟨[], 0, []⟩] ∧
    (mtree_verify script_world glob_libc OnlyState.init {} 3
      ⟨[regular_file "x"], [regular_file "x"], 0⟩).status = .returned 0 ∧
    (mtree_verify script_world glob_libc OnlyState.init {} 3
      ⟨[], [regular_file "s"], 0⟩).status = .returned 0 ∧
    (mtree_verify script_world glob_libc OnlyState.init {} 3
      ⟨[], [regular_file "s"], 0⟩).trace =
      [.spec_header ARCHIVE_OK (regular_file "s"), .disk_header ARCHIVE_EOF ⟨[], 0, []⟩] := by
  refine ⟨(verify_silent W lib only mt fuel w).1,
    fun v hv => ((verify_silent W lib only mt fuel w).2 v hv).1, ?_⟩
  decide

/-- C15 (the code departs from the claim).  `main` runs the mode chosen by the flags and
its events are those of the mode function.  In generate and convert mode the value the
function returns is assigned to `status` and, after the `-U` fold, is the exit status; in
verify mode the result of `mtree_verify` is not used and `status` keeps `ARCHIVE_OK`; with
two specs no mode function runs and the exit status is 0.  In every mode, world and flag
setting the exit status is 0 or, after `lafe_errc`, 1: it is never `MISMATCHEXIT`.  So the
verify run over the disk entry `x` and an empty spec, where `x` is not described in the spec,
exits with status 0. -/
theorem exit_status_never_mismatch {σ : Type} (W : World σ) (lib : Libc) (only : OnlyState)
    (mt : mtree) (spec2 : Bool) (fuel : Nat) (w : σ) :
    (mt.cflag ≠ 0 →
      (main W lib only mt spec2 fuel w).trace = (mtree_cwalk W lib only mt fuel w).trace ∧
      ∀ v, (mtree_cwalk W lib only mt fuel w).status = .returned v →
        (main W lib only mt spec2 fuel w).status =
          .exited (if mt.Uflag ≠ 0 ∧ v = MISMATCHEXIT then 0 else v)) ∧
    (mt.cflag = 0 → mt.Cflag ≠ 0 ∨ mt.Dflag ≠ 0 →
      (main W lib only mt spec2 fuel w).trace = (mtree_convert W mt fuel w).trace ∧
      ∀ v, (mtree_convert W mt fuel w).status = .returned v →
        (main W lib only mt spec2 fuel w).status =
          .exited (if mt.Uflag ≠ 0 ∧ v = MISMATCHEXIT then 0 else v)) ∧
    (mt.cflag = 0 → mt.Cflag = 0 → mt.Dflag = 0 → spec2 = true →
      (main W lib only mt spec2 fuel w).trace = [] ∧
      (main W lib only mt spec2 fuel w).status = .exited 0) ∧
    (mt.cflag = 0 → mt.Cflag = 0 → mt.Dflag = 0 → spec2 = false →
      (main W lib only mt spec2 fuel w).trace = (mtree_verify W lib only mt fuel w).trace ∧
      ∀ v, (mtree_verify W lib only mt fuel w).status = .returned v →
        (main W lib only mt spec2 fuel w).status = .exited 0) ∧
    (∀ c, (main W lib only mt spec2 fuel w).status = .exited c → c = 0 ∨ c = 1) ∧
    (main script_world glob_libc OnlyState.init {} false 3
      ⟨[regular_file "x"], [], 0⟩).status = .exited 0 ∧
    (main script_world glob_libc OnlyState.init {} false 3
      ⟨[regular_file "x"], [], 0⟩).trace =
      [.spec_header ARCHIVE_EOF ⟨[], 0, []⟩, .disk_header ARCHIVE_OK (regular_file "x"),
        .descend (regular_file "x"), .spec_header ARCHIVE_EOF ⟨[], 0, []⟩,
        .disk_header ARCHIVE_EOF ⟨[], 0, []⟩] := by
  have hm : ¬ (ARCHIVE_OK = MISMATCHEXIT) := by decide
  have hm0 : ¬ ((0 : Int) = MISMATCHEXIT) := by decide
  obtain ⟨c1, c2, c3, c4⟩ := main_exit_of_run mt (mtree_cwalk W lib only mt fuel w)
  obtain ⟨v1, v2, v3, v4⟩ := main_exit_of_run mt (mtree_convert W mt fuel w)
  obtain ⟨y1, y2, y3, y4⟩ := main_exit_of_verify mt (mtree_verify W lib only mt fuel w)
  have hcw : mt.cflag ≠ 0 → main W lib only mt spec2 fuel w =
      (match (mtree_cwalk W lib only mt fuel w).status with
        | .returned v => main_exit mt v (mtree_cwalk W lib only mt fuel w)
        | _ => mtree_cwalk W lib only mt fuel w) := by
    intro hc
    simp only [main, hc, ne_eq, not_false_eq_true, if_true]
  have hcv : mt.cflag = 0 → mt.Cflag ≠ 0 ∨ mt.Dflag ≠ 0 → main W lib only mt spec2 fuel w =
      (match (mtree_convert W mt fuel w).status with
        | .returned v => main_exit mt v (mtree_convert W mt fuel w)
        | _ => mtree_convert W mt fuel w) := by
    intro hc hCD
    simp only [main, hc, ne_eq, not_true_eq_false, if_false, hCD, if_true]
  have hs2 : mt.cflag = 0 → mt.Cflag = 0 → mt.Dflag = 0 → spec2 = true →
      main W lib only mt spec2 fuel w = main_exit mt ARCHIVE_OK ⟨.running, [], w⟩ := by
    intro hc hC hD hs
    simp [main, hc, hC, hD, hs]
  have hvf : mt.cflag = 0 → mt.Cflag = 0 → mt.Dflag = 0 → spec2 = false →
      main W lib only mt spec2 fuel w =
      (match (mtree_verify W lib only mt fuel w).status with
        | .returned _ => main_exit mt ARCHIVE_OK (mtree_verify W lib only mt fuel w)
        | _ => mtree_verify W lib only mt fuel w) := by
    intro hc hC hD hs
    simp [main, hc, hC, hD, hs]
  refine ⟨?_, ?_, ?_, ?_, ?_, by decide, by decide⟩
  · intro hc
    rw [hcw hc]
    exact ⟨c1, c2⟩
  · intro hc hCD
    rw [hcv hc hCD]
    exact ⟨v1, v2⟩
  · intro hc hC hD hs
    rw [hs2 hc hC hD hs]
    simp [main_exit, hm]
  · intro hc hC hD hs
    rw [hvf hc hC hD hs]
    exact ⟨y1, y2⟩
  · intro c hcode
    by_cases hc : mt.cflag = 0
    · by_cases hCD : mt.Cflag ≠ 0 ∨ mt.Dflag ≠ 0
      · rw [hcv hc hCD] at hcode
        cases hst : (mtree_convert W mt fuel w).status with
        | returned v =>
          have hv0 := (convert_results W mt fuel w).1 v hst
          subst hv0
          rw [v2 0 hst] at hcode
          simp only [hm0, and_false, if_false, Status.exited.injEq] at hcode
          exact Or.inl hcode.symm
        | exited c2 =>
          have hc1 := (convert_results W mt fuel w).2 c2 hst
          subst hc1
          rw [v3 1 hst] at hcode
          simp only [Status.exited.injEq] at hcode
          exact Or.inr hcode.symm
        | running =>
          rw [v4 hst] at hcode
          simp at hcode
      · have hC : mt.Cflag = 0 := by
          by_contra h
          exact hCD (Or.inl h)
        have hD : mt.Dflag = 0 := by
          by_contra h
          exact hCD (Or.inr h)
        by_cases hs : spec2 = true
        · rw [hs2 hc hC hD hs] at hcode
          simp only [main_exit, hm, and_false, if_false, Status.exited.injEq] at hcode
          exact Or.inl hcode.symm
        · have hs0 : spec2 = false := by simpa using hs
          rw [hvf hc hC hD hs0] at hcode
          cases hst : (mtree_verify W lib only mt fuel w).status with
          | returned v =>
            rw [y2 v hst] at hcode
            simp only [Status.exited.injEq] at hcode
            exact Or.inl hcode.symm
          | exited c2 =>
            have hc1 := (verify_results W lib only mt fuel w).2 c2 hst
            subst hc1
            rw [y3 1 hst] at hcode
            simp only [Status.exited.injEq] at hcode
            exact Or.inr hcode.symm
          | running =>
            rw [y4 hst] at hcode
            simp at hcode
    · rw [hcw hc] at hcode
      cases hst : (mtree_cwalk W lib only mt fuel w).status with
      | returned v =>
        have hv0 := (cwalk_results W lib only mt fuel w).1 v hst
        subst hv0
        rw [c2 0 hst] at hcode
        simp only [hm0, and_false, if_false, Status.exited.injEq] at hcode
        exact Or.inl hcode.symm
      | exited c2 =>
        have hc1 := (cwalk_results W lib only mt fuel w).2 c2 hst
        subst hc1
        rw [c3 1 hst] at hcode
        simp only [Status.exited.injEq] at hcode
        exact Or.inr hcode.symm
      | running =>
        rw [c4 hst] at hcode
        simp at hcode

/-- C15 on the small world: the verify run over the disk entry `x` and an empty spec has
the events of `mtree_verify` and exits with status 0, which is neither `MISMATCHEXIT` nor a
value taken from the mode function; a generate run with `-U` exits with status 0 too. -/
theorem exit_status_never_mismatch_witness :
    (main script_world glob_libc OnlyState.init {} false 3
      ⟨[regular_file "x"], [], 0⟩).status = .exited 0 ∧
    ((0 : Int) = 0 ∨ (0 : Int) = 1) ∧
    (main script_world glob_libc OnlyState.init { cflag := 1, Uflag := 1 } false 3
      ⟨[regular_file "x"], [], 0⟩).status = .exited 0 :=
  ⟨((exit_status_never_mismatch script_world glob_libc OnlyState.init {} false 3
      ⟨[regular_file "x"], [], 0⟩).2.2.2.1 rfl rfl rfl rfl).2 0 (by decide),
    (exit_status_never_mismatch script_world glob_libc OnlyState.init {} false 3
      ⟨[regular_file "x"], [], 0⟩).2.2.2.2.1 0 (by decide),
    ((exit_status_never_mismatch script_world glob_libc OnlyState.init
      { cflag := 1, Uflag := 1 } false 3 ⟨[regular_file "x"], [], 0⟩).1 (by decide)).2 0
      (by decide)⟩

/-- C16 as stated fails.  For the C library `erring_libc` the matcher reports an error for
the pattern `[` (result 2, neither 0 nor `FNM_NOMATCH`); `__archive_mtree_pathmatch` returns
-1 for it, but `check_excludes` over the list holding that pattern returns 0, the answer
"not excluded". -/
theorem check_excludes_hides_error :
    erring_libc.fnmatch (bytes "[") (bytes "x") erring_libc.FNM_PATHNAME = 2 ∧
    erring_libc.FNM_NOMATCH = 1 ∧
    __archive_mtree_pathmatch erring_libc (bytes "[") (bytes "x") 0 = -1 ∧
    check_excludes erring_libc (regular_file "x") { excludes := [bytes "["] } = 0 := by
  decide

/-- C16 (amended).  `__archive_mtree_pathmatch` returns -1, a value other than 1 and 0, for
a pattern on which the matcher reports an error.  `check_excludes` calls the matcher itself
and tests its result against 0 only: it returns 0 or 1 and nothing else, and it returns 0
when no pattern of the list gives the result 0, errors included. -/
theorem pathmatch_error_and_excludes (lib : Libc) :
    (∀ p s flags, lib.fnmatch p s (flags ||| lib.FNM_PATHNAME) ≠ 0 →
      lib.fnmatch p s (flags ||| lib.FNM_PATHNAME) ≠ lib.FNM_NOMATCH →
      __archive_mtree_pathmatch lib p s flags = -1) ∧
    (∀ entry mt, check_excludes lib entry mt = 0 ∨ check_excludes lib entry mt = 1) ∧
    (∀ entry mt, (∀ p ∈ mt.excludes, ∀ s, lib.fnmatch p s lib.FNM_PATHNAME ≠ 0) →
      check_excludes lib entry mt = 0) := by
  refine ⟨?_, ?_, ?_⟩
  · intro p s flags h0 h1
    simp only [__archive_mtree_pathmatch, h0, h1, if_false]
  · intro entry mt
    exact (check_excludes_loop_values lib mt.excludes entry.pathname).symm
  · intro entry mt h
    exact check_excludes_loop_no_match lib mt.excludes h entry.pathname

/-- C16 (amended), at the C library `erring_libc`: the pattern `[` gives -1 from
`__archive_mtree_pathmatch`, and no result of the matcher is 0 for it. -/
theorem pathmatch_error_and_excludes_witness :
    erring_libc.fnmatch (bytes "[") (bytes "x") (0 ||| erring_libc.FNM_PATHNAME) ≠ 0 ∧
    erring_libc.fnmatch (bytes "[") (bytes "x") (0 ||| erring_libc.FNM_PATHNAME) ≠
      erring_libc.FNM_NOMATCH ∧
    __archive_mtree_pathmatch erring_libc (bytes "[") (bytes "x") 0 = -1 ∧
    check_excludes erring_libc (regular_file "x") { excludes := [bytes "["] } = 0 :=
  ⟨by decide, by decide,
    (pathmatch_error_and_excludes erring_libc).1 (bytes "[") (bytes "x") 0 (by decide)
      (by decide),
    (pathmatch_error_and_excludes erring_libc).2.2 (regular_file "x")
      { excludes := [bytes "["] } (by
        intro p hp s
        simp only [List.mem_singleton] at hp
        subst hp
        simp [erring_libc, bytes])⟩

/-- C17 as stated fails.  For the block size 10240 the loop stops at once with
`buf_size = 65536`, which is not 10240 times a power of two (nor any multiple of 10240). -/
theorem buf_size_not_multiple_of_block :
    main_buf_size 64 16 10240 = some 65536 ∧ main_buf_size 32 16 10240 = some 65536 ∧
    ¬ (10240 ∣ 65536) ∧ ¬ ∃ m : Nat, 65536 = 2 ^ m * 10240 := by
  refine ⟨by decide, by decide, by decide, ?_⟩
  rintro ⟨m, hm⟩
  have : 10240 ∣ 65536 := ⟨2 ^ m, by rw [hm, Nat.mul_comm]⟩
  exact absurd this (by decide)

/-- C17 (amended).  For a `size_t` of at least 32 bits and every block size `b` with
`0 ≤ b ≤ INT_MAX`, sixteen turns suffice for the sizing loop to stop, and it stops with
`buf_size = 65536 * 2^k` for the least `k` with `65536 * 2^k ≥ b`: so `buf_size ≥ b` and
`buf_size` is a power-of-two multiple of the 64 KiB baseline. -/
theorem buf_size_doubles_from_baseline (bits : Nat) (hbits : 32 ≤ bits) (b : Int)
    (h0 : 0 ≤ b) (h1 : b ≤ INT_MAX) (fuel : Nat) (hfuel : 16 ≤ fuel) :
    ∃ k, main_buf_size bits fuel b = some (DEFAULT_BYTES_PER_BLOCK * 2 ^ k) ∧
      b ≤ ((DEFAULT_BYTES_PER_BLOCK * 2 ^ k : Nat) : Int) ∧
      ∀ j, j < k → ((DEFAULT_BYTES_PER_BLOCK * 2 ^ j : Nat) : Int) < b := by
  have hcast := size_cast_of_nonneg bits hbits b h0 h1
  have ht : b.toNat ≤ 2 ^ 31 := by
    have : b ≤ 2 ^ 31 - 1 := h1
    omega
  obtain ⟨k, hk, hge, hleast⟩ := buf_size_loop_doubles bits b.toNat hbits ht 15 0 (by omega)
    (fun j hj => absurd hj (Nat.not_lt_zero j))
  refine ⟨k, ?_, ?_, ?_⟩
  · unfold main_buf_size
    rw [hcast]
    obtain ⟨m, hm⟩ : ∃ m, fuel = 16 + m := ⟨fuel - 16, by omega⟩
    rw [hm]
    have := buf_size_loop_mono bits b.toNat 16 m _ _ hk
    simpa using this
  · omega
  · intro j hj
    have := hleast j hj
    omega

/-- C17 (amended), at a 64-bit `size_t` and the block size 10240: the loop stops with 65536,
that is `k = 0`. -/
theorem buf_size_doubles_from_baseline_witness :
    (32 ≤ 64) ∧ (0 : Int) ≤ 10240 ∧ (10240 : Int) ≤ INT_MAX ∧
    main_buf_size 64 16 10240 = some 65536 ∧
    ∃ k, main_buf_size 64 16 10240 = some (DEFAULT_BYTES_PER_BLOCK * 2 ^ k) ∧
      (10240 : Int) ≤ ((DEFAULT_BYTES_PER_BLOCK * 2 ^ k : Nat) : Int) ∧
      ∀ j, j < k → ((DEFAULT_BYTES_PER_BLOCK * 2 ^ j : Nat) : Int) < 10240 :=
  ⟨by decide, by decide, by decide, by decide,
    buf_size_doubles_from_baseline 64 (by decide) 10240 (by decide) (by decide) 16 (by decide)⟩

/-- C18 (the code departs from the claim).  The list `dir/file`, `dir` fails with a
duplicate error at line 1 naming `dir`, and the list `dir`, `dir/file` loads; but in the list
`a/X:`, `a` the second line is an ancestor of the first and the load still succeeds, because
`fill` never inserted `a` (the line and its ancestor share bucket 100 and the line's own cell
was read as `a` while the buffer was cut). -/
theorem duplicate_check_misses_aliased_ancestor :
    mtree_read_load_only_file [bytes "dir/file", bytes "dir"] = .duplicate 1 (bytes "dir") ∧
    find_after_load [bytes "dir", bytes "dir/file"] (bytes "dir/file") = some true ∧
    Ancestor (bytes "a") (bytes "a/X:") ∧
    find_after_load [bytes "a/X:", bytes "a"] (bytes "a") = some true ∧
    (∀ k l, mtree_read_load_only_file [bytes "a/X:", bytes "a"] ≠ .duplicate k l) := by
  have h : find_after_load [bytes "a/X:", bytes "a"] (bytes "a") = some true := by
    set_option maxRecDepth 100000 in decide
  refine ⟨by set_option maxRecDepth 100000 in decide,
    by set_option maxRecDepth 100000 in decide, Ancestor.parent (by decide), h, ?_⟩
  intro k l hk
  simp [find_after_load, hk] at h

end Mtree
